import Mathlib

/-!
# tsmap: a map with per-entry exclusive access

A shallow embedding of `lockedmap.go` / `tsmap.go`.

* The Go heap is explicit: `LockedMap.heap` holds every `ElementHolder` that `Add`
  allocated with `new`, and the Go map `m.m` maps a key to the address of its holder
  (`map[string]*ElementHolder`).  A holder removed by `Delete` stays on the heap, with
  its channel closed, exactly as it stays alive in Go for the callers that still hold
  the pointer.
* `chan int` of capacity one (the only channel `Add` makes) is `Chan`.
* A call either returns, waits for ever on a channel operation that cannot proceed, or
  panics: `Outcome`.
* `m.mutex` makes every function body one critical section (Lock leaves it only around
  the channel receive); between calls it is free, so it is not a state component.
* An `*ElementLoan` lives outside the map, at the caller; `Unlock` writes to it, so
  `Unlock` returns the loan's new contents next to the map's.
-/

namespace Tsmap

/-! ## Values -/

/-- A non-nil value of the `Element` interface: a reference to a caller object
(`ref` is the identity of the object) and the key its `Key()` method returns. -/
structure Element where
  ref : Nat
  key : String
deriving DecidableEq, Repr

/-- Go `int`, 64 bits wide: the value of `x` after two's complement wrap-around. -/
def wrapInt (x : Int) : Int :=
  (x + 2 ^ 63) % 2 ^ 64 - 2 ^ 63

/-- The largest Go `int`. -/
def maxInt : Int := 2 ^ 63 - 1

/-- The result of a call: it returns a value, it waits on a channel operation that
cannot proceed in this state, or it panics. -/
inductive Outcome (α : Type) where
  | ret : α → Outcome α
  | block : Outcome α
  | fault : Outcome α
deriving DecidableEq, Repr

/-! ## Channels: `chan int` with a buffer of one -/

/-- A `chan int` made by `make(chan int, 1)`: the one buffer cell `buf` and the closed flag. -/
structure Chan where
  buf : Option Int
  closed : Bool
deriving DecidableEq, Repr

/-- Outcome of `ch <- v`. -/
inductive SendResult where
  | ok : Chan → SendResult
  | block : SendResult
  | panic : SendResult
deriving DecidableEq, Repr

/-- Outcome of `v, ok := <-ch`. -/
inductive RecvResult where
  | ok : Int → Chan → RecvResult
  | closed : RecvResult
  | block : RecvResult
deriving DecidableEq, Repr

namespace Chan

/-- The channel `make(chan int, 1)`: open and empty. -/
def make : Chan := { buf := none, closed := false }

/-- Send `ch <- v`: panics on a closed channel, fills the free cell, waits when the
cell is taken. -/
def send (ch : Chan) (v : Int) : SendResult :=
  if ch.closed then .panic
  else match ch.buf with
    | none => .ok { ch with buf := some v }
    | some _ => .block

/-- Receive `v, ok := <-ch`: takes the buffered value if there is one; on an empty
channel it yields `ok = false` when the channel is closed and waits otherwise. -/
def recv (ch : Chan) : RecvResult :=
  match ch.buf with
  | some v => .ok v { ch with buf := none }
  | none => if ch.closed then .closed else .block

/-- The statement `close(ch)`: panics (none) when the channel is closed already. -/
def close (ch : Chan) : Option Chan :=
  if ch.closed then none else some { ch with closed := true }

end Chan

/-! ## The data model of `lockedmap.go` -/

/-- The struct `ElementHolder`: the element, the transaction id of the current loan,
the held flag and the queue callers receive from before they access the element.
`element` is an interface value, `none` is Go's nil. -/
structure ElementHolder where
  element : Option Element
  lockedTransactionId : Int
  locked : Bool
  lockQueue : Chan
deriving DecidableEq, Repr

/-- The struct `ElementLoan`, what `Lock` hands out. -/
structure ElementLoan where
  element : Option Element
  transactionId : Int
deriving DecidableEq, Repr

/-- The method `(el *ElementLoan) Element()`. -/
def ElementLoan.Element (el : ElementLoan) : Option Element :=
  el.element

/-- The struct `LockedMap`: the Go map `m` from keys to holder addresses, and the heap
the addresses point into. -/
structure LockedMap where
  m : List (String × Nat)
  heap : List ElementHolder
deriving DecidableEq, Repr

/-- Go map lookup `a, exists := m[key]`. -/
def mapGet : List (String × Nat) → String → Option Nat
  | [], _ => none
  | (k, a) :: rest, key => if k = key then some a else mapGet rest key

/-- Go builtin `delete(m, key)`. -/
def mapDelete : List (String × Nat) → String → List (String × Nat)
  | [], _ => []
  | (k, a) :: rest, key =>
    if k = key then mapDelete rest key else (k, a) :: mapDelete rest key

/-- Go map assignment `m[key] = a`. -/
def mapSet (m : List (String × Nat)) (key : String) (a : Nat) : List (String × Nat) :=
  (key, a) :: mapDelete m key

/-- The holder the map stores under `key`, if any: `m.m[key]` dereferenced. -/
def slot (m : LockedMap) (key : String) : Option ElementHolder :=
  match mapGet m.m key with
  | none => none
  | some a => m.heap[a]?

/-- The function `CreateLockedMap`. -/
def CreateLockedMap : LockedMap :=
  { m := [], heap := [] }

/-- The method `Add`. A nil `element` panics at `element.Key()`. The new holder is
allocated at the end of the heap. -/
def Add (m : LockedMap) (element : Option Element) : Outcome (LockedMap × Bool) :=
  match element with
  | none => .fault
  | some e =>
    let key := e.key
    match mapGet m.m key with
    | some _ => .ret (m, false)
    | none =>
      match Chan.make.send 1 with
      | .panic => .fault
      | .block => .block
      | .ok q =>
        let eh : ElementHolder :=
          { element := some e, lockedTransactionId := 0, locked := false, lockQueue := q }
        .ret ({ m := mapSet m.m key m.heap.length, heap := m.heap ++ [eh] }, true)

/-- The method `Lock`. The nil result is `none`. An address with no holder behind it
(no Go state has one) is a fault. -/
def Lock (m : LockedMap) (key : String) : Outcome (LockedMap × Option ElementLoan) :=
  match mapGet m.m key with
  | none => .ret (m, none)
  | some a =>
    match m.heap[a]? with
    | none => .fault
    | some eltHolder =>
      match eltHolder.lockQueue.recv with
      | .block => .block
      | .closed => .ret (m, none)
      | .ok token q =>
        let token := wrapInt (token + 1)
        let eltHolder1 : ElementHolder :=
          { eltHolder with lockQueue := q, lockedTransactionId := token, locked := true }
        let loan : ElementLoan :=
          { element := eltHolder1.element, transactionId := eltHolder1.lockedTransactionId }
        .ret ({ m with heap := m.heap.set a eltHolder1 }, some loan)

/-- The method `Unlock`, on the loan the type assertion `eltAccess.(*ElementLoan)`
yields. Returns the map, the loan as the call leaves it, and the boolean. A loan whose
element is nil panics at `loan.element.Key()`. -/
def Unlock (m : LockedMap) (loan : ElementLoan) : Outcome (LockedMap × ElementLoan × Bool) :=
  match loan.element with
  | none => .fault
  | some e =>
    match mapGet m.m e.key with
    | none => .ret (m, loan, false)
    | some a =>
      match m.heap[a]? with
      | none => .fault
      | some eltHolder =>
        if eltHolder.locked = false then .ret (m, loan, false)
        else if eltHolder.lockedTransactionId = loan.transactionId then
          match eltHolder.lockQueue.send eltHolder.lockedTransactionId with
          | .panic => .fault
          | .block => .block
          | .ok q =>
            let eltHolder1 : ElementHolder := { eltHolder with locked := false, lockQueue := q }
            .ret ({ m with heap := m.heap.set a eltHolder1 }, { loan with element := none }, true)
        else .ret (m, loan, false)

/-- The method `Delete`: acquire the element with `Lock`, then remove the key the
holder's element reports and close the holder's queue. -/
def Delete (m : LockedMap) (key : String) : Outcome (LockedMap × Bool) :=
  match Lock m key with
  | .block => .block
  | .fault => .fault
  | .ret (m1, none) => .ret (m1, false)
  | .ret (m1, some _) =>
    match mapGet m1.m key with
    | none => .fault
    | some a =>
      match m1.heap[a]? with
      | none => .fault
      | some eltHolder =>
        match eltHolder.element with
        | none => .fault
        | some e =>
          match eltHolder.lockQueue.close with
          | none => .fault
          | some q =>
            .ret ({ m := mapDelete m1.m e.key,
                    heap := m1.heap.set a { eltHolder with lockQueue := q } }, true)

/-! ## The representation invariant and the calls a client can make -/

/-- What holds of a holder the map stores under `key`: its element is there and
reports `key`, its queue is open, and it is held exactly when its queue is empty. -/
structure SlotOK (key : String) (h : ElementHolder) : Prop where
  keyed : ∃ e, h.element = some e ∧ e.key = key
  isOpen : h.lockQueue.closed = false
  gate : h.locked = true ↔ h.lockQueue.buf = none

/-- The representation invariant of a `LockedMap`: every address in the Go map has a
holder on the heap, and the holder satisfies `SlotOK` for the key it is stored under. -/
def WF (m : LockedMap) : Prop :=
  ∀ k a, mapGet m.m k = some a → ∃ h, m.heap[a]? = some h ∧ SlotOK k h

/-- A client of one map: the map and the loans `Lock` has returned to the client so
far, in the order they were issued, each with its current contents. -/
structure Sys where
  map : LockedMap
  loans : List ElementLoan
deriving DecidableEq, Repr

/-- A call of the client: `Unlock` names an issued loan by its position. -/
inductive Call where
  | add : Option Element → Call
  | lock : String → Call
  | unlock : Nat → Call
  | delete : String → Call
deriving DecidableEq, Repr

/-- One call that returns: the state after it (none when the call does not return, or
names a loan that was never issued). -/
def step (s : Sys) : Call → Option Sys
  | .add v =>
    match Add s.map v with
    | .ret (m1, _) => some { s with map := m1 }
    | _ => none
  | .lock k =>
    match Lock s.map k with
    | .ret (m1, r) => some { map := m1, loans := s.loans ++ r.toList }
    | _ => none
  | .unlock i =>
    match s.loans[i]? with
    | none => none
    | some loan =>
      match Unlock s.map loan with
      | .ret (m1, loan1, _) => some { map := m1, loans := s.loans.set i loan1 }
      | _ => none
  | .delete k =>
    match Delete s.map k with
    | .ret (m1, _) => some { s with map := m1 }
    | _ => none

/-- Run a sequence of calls, each of which has to return. -/
def run (s : Sys) : List Call → Option Sys
  | [] => some s
  | c :: cs =>
    match step s c with
    | none => none
    | some s1 => run s1 cs

/-- The states a client reaches from `CreateLockedMap()` by calls that return. -/
inductive Reachable : Sys → Prop where
  | init : Reachable { map := CreateLockedMap, loans := [] }
  | next {s s1 : Sys} (c : Call) : Reachable s → step s c = some s1 → Reachable s1

/-- Whether `Unlock` of this loan would return true in this map state. -/
def unlockable (m : LockedMap) (loan : ElementLoan) : Bool :=
  match Unlock m loan with
  | .ret (_, _, true) => true
  | _ => false

/-- The key a loan concerns, `loan.element.Key()`, when its element is not nil. -/
def ElementLoan.key? (loan : ElementLoan) : Option String :=
  loan.element.map Element.key

/-- What holds of the issued loans in a reachable state: a loan whose element is not
nil is the current loan of the slot under its key, and no other such loan concerns the
same key. -/
def LoansOK (s : Sys) : Prop :=
  ∀ (i : Nat) (l : ElementLoan) (e : Element), s.loans[i]? = some l → l.element = some e →
    (∃ h, slot s.map e.key = some h ∧ h.locked = true ∧
      h.lockedTransactionId = l.transactionId) ∧
    ∀ (j : Nat) (l1 : ElementLoan) (e1 : Element),
      s.loans[j]? = some l1 → l1.element = some e1 → e1.key = e.key → i = j

/-! ## The sections of `Lock` and `Delete`

`Lock` gives up `m.mutex` around its channel receive, and `Delete` calls `Lock` before
its own critical section, so calls of other goroutines can run between the sections
below. Each section is atomic: the critical sections by the mutex, the receive as one
channel operation. -/

/-- `Lock`, first critical section: the lookup `eltHolder, exists := m.m[key]`; the
address of the holder, or none when the call returns nil at once. -/
def lockLookup (m : LockedMap) (key : String) : Option Nat :=
  mapGet m.m key

/-- `Lock`, the receive `token, ok := <-eltHolder.lockQueue` on the holder at address
`a`: the token when `ok`, none when the queue is closed and empty. -/
def lockRecv (m : LockedMap) (a : Nat) : Outcome (LockedMap × Option Int) :=
  match m.heap[a]? with
  | none => .fault
  | some eltHolder =>
    match eltHolder.lockQueue.recv with
    | .block => .block
    | .closed => .ret (m, none)
    | .ok token q =>
      .ret ({ m with heap := m.heap.set a { eltHolder with lockQueue := q } }, some token)

/-- `Lock`, second critical section, with what the receive yielded: return nil on
`!ok`, else bump the token, mark the holder held and return the loan. -/
def lockFinish (m : LockedMap) (a : Nat) (r : Option Int) :
    Outcome (LockedMap × Option ElementLoan) :=
  match r with
  | none => .ret (m, none)
  | some token =>
    match m.heap[a]? with
    | none => .fault
    | some eltHolder =>
      let token := wrapInt (token + 1)
      let eltHolder1 : ElementHolder :=
        { eltHolder with lockedTransactionId := token, locked := true }
      let loan : ElementLoan :=
        { element := eltHolder1.element, transactionId := eltHolder1.lockedTransactionId }
      .ret ({ m with heap := m.heap.set a eltHolder1 }, some loan)

/-- `Lock` from the receive on, with no other call in between. -/
def lockWait (m : LockedMap) (a : Nat) : Outcome (LockedMap × Option ElementLoan) :=
  match lockRecv m a with
  | .block => .block
  | .fault => .fault
  | .ret (m1, r) => lockFinish m1 a r

/-- `Delete` after its call of `Lock` has returned `eltLoan`. -/
def deleteFinish (m : LockedMap) (key : String) (eltLoan : Option ElementLoan) :
    Outcome (LockedMap × Bool) :=
  match eltLoan with
  | none => .ret (m, false)
  | some _ =>
    match mapGet m.m key with
    | none => .fault
    | some a =>
      match m.heap[a]? with
      | none => .fault
      | some eltHolder =>
        match eltHolder.element with
        | none => .fault
        | some e =>
          match eltHolder.lockQueue.close with
          | none => .fault
          | some q =>
            .ret ({ m := mapDelete m.m e.key,
                    heap := m.heap.set a { eltHolder with lockQueue := q } }, true)

/-- The `n` calls of `Lock` that wait on the holder at address `a` resume one after the
other; what each of them returns. -/
def lockWaitAll (m : LockedMap) (a : Nat) : Nat → Outcome (LockedMap × List (Option ElementLoan))
  | 0 => .ret (m, [])
  | n + 1 =>
    match lockWait m a with
    | .block => .block
    | .fault => .fault
    | .ret (m1, r) =>
      match lockWaitAll m1 a n with
      | .block => .block
      | .fault => .fault
      | .ret (m2, rs) => .ret (m2, r :: rs)

/-! ## Tokens -/

/-- No gate holds the largest `int`: the next `token++` does not wrap around. -/
def noWrap (m : LockedMap) : Bool :=
  m.heap.all fun h =>
    match h.lockQueue.buf with
    | some t => decide (t < maxInt)
    | none => true

/-- What holds of the tokens of a slot in the map: the slot's token is an `int`, and a
token in the gate is not below it. -/
def TokInv (m : LockedMap) : Prop :=
  ∀ k eh, slot m k = some eh →
    -(2 : Int) ^ 63 ≤ eh.lockedTransactionId ∧
    ∀ t, eh.lockQueue.buf = some t → eh.lockedTransactionId ≤ t

/-- Calls that return, one after the other, each begun in a state where no token is
about to wrap around. -/
inductive StepsNoWrap : Sys → Sys → Prop where
  | refl (s : Sys) : StepsNoWrap s s
  | tail {s s1 s2 : Sys} (c : Call) :
    StepsNoWrap s s1 → noWrap s1.map = true → step s1 c = some s2 → StepsNoWrap s s2

/-! ## The workers of `TestThreadSafety`

`N` goroutines run `workerFunc` on one map that holds one element: `Lock("key1")`,
`e1.a = e1.a + 1`, `Unlock`. A worker advances by atomic sections: the sections of `Lock`,
the read of `e1.a`, the write of `e1.a`, and `Unlock`. Any worker that can advance may be
the next to do so. -/

/-- A worker, by where it is in `workerFunc`. -/
inductive Worker where
  | start : Worker
  | waiting : Nat → Worker
  | received : Nat → Option Int → Worker
  | holding : ElementLoan → Worker
  | loaded : ElementLoan → Int → Worker
  | stored : ElementLoan → Worker
  | done : Worker
  | failed : Worker
deriving DecidableEq, Repr

/-- The worker has taken the token from the gate and not yet given it back. -/
def Worker.active : Worker → Bool
  | .received _ _ => true
  | .holding _ => true
  | .loaded _ _ => true
  | .stored _ => true
  | _ => false

/-- The worker has written its increment of `e1.a`. -/
def Worker.past : Worker → Bool
  | .stored _ => true
  | .done => true
  | _ => false

/-- The map, the field `a` of the one element in it, and the workers. -/
structure Race where
  map : LockedMap
  a : Int
  workers : List Worker
deriving DecidableEq, Repr

/-- One section of a worker: `start` looks the key up (`Lock` returning nil is the
`t.Error("Lock failed")` path); `waiting` is the receive, which may have to wait (none);
`received` is the rest of `Lock`; `holding` reads `e1.a` (a nil element is the
`t.Error("Element was nil")` path); `loaded` writes `e1.a`; `stored` calls `Unlock`
(false is the `t.Error("unlock failed")` path) and ends with `wg.Done()`. A panic of a
map call ends the worker as failed. -/
def workerStep (key : String) (m : LockedMap) (c : Int) :
    Worker → Option (LockedMap × Int × Worker)
  | .start =>
    match lockLookup m key with
    | none => some (m, c, .failed)
    | some a => some (m, c, .waiting a)
  | .waiting a =>
    match lockRecv m a with
    | .ret (m1, r) => some (m1, c, .received a r)
    | .block => none
    | .fault => some (m, c, .failed)
  | .received a r =>
    match lockFinish m a r with
    | .ret (m1, some loan) => some (m1, c, .holding loan)
    | .ret (m1, none) => some (m1, c, .failed)
    | .block => none
    | .fault => some (m, c, .failed)
  | .holding loan =>
    match loan.Element with
    | none => some (m, c, .failed)
    | some _ => some (m, c, .loaded loan c)
  | .loaded loan v => some (m, wrapInt (v + 1), .stored loan)
  | .stored loan =>
    match Unlock m loan with
    | .ret (m1, _, true) => some (m1, c, .done)
    | .ret (m1, _, false) => some (m1, c, .failed)
    | .block => none
    | .fault => some (m, c, .failed)
  | .done => none
  | .failed => none

/-- Worker `i` runs its next section. -/
def raceStep (key : String) (s : Race) (i : Nat) : Option Race :=
  match s.workers[i]? with
  | none => none
  | some w =>
    match workerStep key s.map s.a w with
    | none => none
    | some (m1, c1, w1) => some { map := m1, a := c1, workers := s.workers.set i w1 }

/-- Run the workers in the order of a schedule. -/
def raceRun (key : String) (s : Race) : List Nat → Option Race
  | [] => some s
  | i :: is =>
    match raceStep key s i with
    | none => none
    | some s1 => raceRun key s1 is

/-- The sections a worker still has to run at most. -/
def Worker.fuel : Worker → Nat
  | .start => 6
  | .waiting _ => 5
  | .received _ _ => 4
  | .holding _ => 3
  | .loaded _ _ => 2
  | .stored _ => 1
  | .done => 0
  | .failed => 0

/-- The sections all workers together still have to run at most. -/
def raceFuel (s : Race) : Nat :=
  (s.workers.map Worker.fuel).sum

/-- The map of the test: `CreateLockedMap()` after `Add(e)`. -/
def mapOf (e : Element) : LockedMap :=
  match Add CreateLockedMap (some e) with
  | .ret (m, _) => m
  | _ => CreateLockedMap

/-- The start of the test: the element's field `a` is 0 and no worker has begun. -/
def raceInit (e : Element) (n : Nat) : Race :=
  { map := mapOf e, a := 0, workers := List.replicate n .start }

/-- The states the `n` workers reach, in any interleaving of their sections. -/
inductive RaceReachable (e : Element) (n : Nat) : Race → Prop where
  | init : RaceReachable e n (raceInit e n)
  | next {s s1 : Race} (i : Nat) :
    RaceReachable e n s → raceStep e.key s i = some s1 → RaceReachable e n s1

/-- What holds of a worker, given the holder `h` of the element and the field `c`. -/
def WorkerOK (e : Element) (h : ElementHolder) (c : Int) : Worker → Prop
  | .start => True
  | .waiting a => a = 0
  | .received a r => a = 0 ∧ ∃ t, r = some t
  | .holding loan =>
    loan.element = some e ∧ h.locked = true ∧ h.lockedTransactionId = loan.transactionId
  | .loaded loan v =>
    (loan.element = some e ∧ h.locked = true ∧
      h.lockedTransactionId = loan.transactionId) ∧ v = c
  | .stored loan =>
    loan.element = some e ∧ h.locked = true ∧ h.lockedTransactionId = loan.transactionId
  | .done => True
  | .failed => False

/-- The invariant of the race: the map has the one key and its open holder `h`; the gate
is empty exactly when some worker is active; at most one worker is active; no worker has
failed; and `a` counts the workers that have written. -/
structure RaceInv (e : Element) (n : Nat) (s : Race) (h : ElementHolder) : Prop where
  mapm : s.map.m = [(e.key, 0)]
  heap : s.map.heap = [h]
  elem : h.element = some e
  isOpen : h.lockQueue.closed = false
  gate : h.lockQueue.buf = none ↔
    ∃ (i : Nat) (w : Worker), s.workers[i]? = some w ∧ w.active = true
  ok : ∀ (i : Nat) (w : Worker), s.workers[i]? = some w → WorkerOK e h s.a w
  len : s.workers.length = n
  unique : ∀ (i j : Nat) (wi wj : Worker), s.workers[i]? = some wi →
    s.workers[j]? = some wj → wi.active = true → wj.active = true → i = j
  count : s.a = (s.workers.countP Worker.past : Int)

/-! ## Calls interleaved section by section

Goroutines call `Add`, `Lock`, `Unlock` and `Delete` on one map at once. `Add` and
`Unlock` hold the mutex from start to end; `Lock` and `Delete` advance by the sections
above. `Unlock` may be given any loan, also one that no `Lock` returned. -/

/-- A call of `Lock` or `Delete` that is under way. The last argument of `waits` and
`got` is the key of the `Delete` that called this `Lock`, none for a `Lock` of the
client. -/
inductive Pending where
  | waits : Nat → Option String → Pending
  | got : Nat → Option Int → Option String → Pending
  | owns : String → ElementLoan → Pending
  | ended : Pending
deriving DecidableEq, Repr

/-- The call has received a token from the gate of the holder at `a` and has not yet
run the second critical section of `Lock`. -/
def Pending.carries (a : Nat) : Pending → Bool
  | .got a1 (some _) _ => decide (a1 = a)
  | _ => false

/-- The map and the calls of `Lock` and `Delete` that have begun. -/
structure Conc where
  map : LockedMap
  calls : List Pending
deriving DecidableEq, Repr

/-- One section of one call. `lookup key del` begins a `Lock(key)` (or a `Delete(key)`
when `del`); `recv`, `finish` and `remove` advance the call at that position. -/
inductive Section where
  | add : Option Element → Section
  | unlock : ElementLoan → Section
  | lookup : String → Bool → Section
  | recv : Nat → Section
  | finish : Nat → Section
  | remove : Nat → Section
deriving DecidableEq, Repr

/-- What `Lock` leaves of a call once its second critical section has returned `res`:
a `Delete` whose `Lock` returned a loan goes on to its own critical section, every
other call has returned. -/
def afterLock (d : Option String) (res : Option ElementLoan) : Pending :=
  match d, res with
  | some key, some loan => .owns key loan
  | _, _ => .ended

/-- Run one section (none when it cannot run now: the receive has to wait, the call is
not at that point, or the section panics). -/
def secStep (c : Conc) : Section → Option Conc
  | .add v =>
    match Add c.map v with
    | .ret (m1, _) => some { c with map := m1 }
    | _ => none
  | .unlock loan =>
    match Unlock c.map loan with
    | .ret (m1, _, _) => some { c with map := m1 }
    | _ => none
  | .lookup key del =>
    match lockLookup c.map key with
    | none => some c
    | some a => some { c with calls := c.calls ++ [.waits a (if del then some key else none)] }
  | .recv i =>
    match c.calls[i]? with
    | some (.waits a d) =>
      match lockRecv c.map a with
      | .ret (m1, r) => some { map := m1, calls := c.calls.set i (.got a r d) }
      | _ => none
    | _ => none
  | .finish i =>
    match c.calls[i]? with
    | some (.got a r d) =>
      match lockFinish c.map a r with
      | .ret (m1, res) => some { map := m1, calls := c.calls.set i (afterLock d res) }
      | _ => none
    | _ => none
  | .remove i =>
    match c.calls[i]? with
    | some (.owns key loan) =>
      match deleteFinish c.map key (some loan) with
      | .ret (m1, _) => some { map := m1, calls := c.calls.set i .ended }
      | _ => none
    | _ => none

/-- Run a sequence of sections. -/
def secRun (c : Conc) : List Section → Option Conc
  | [] => some c
  | x :: xs =>
    match secStep c x with
    | none => none
    | some c1 => secRun c1 xs

/-- The states reached from `CreateLockedMap()` by sections of calls, in any
interleaving. -/
inductive SecReachable : Conc → Prop where
  | init : SecReachable { map := CreateLockedMap, calls := [] }
  | next {c c1 : Conc} (x : Section) : SecReachable c → secStep c x = some c1 → SecReachable c1

/-- What holds, between any two sections, of a holder the map stores under `key` at
address `a`: its element reports `key`, its gate is open, a held holder has an empty
gate, no call carries a token of a holder that is held or has a token in its gate, and
at most one call carries a token of it. -/
structure SecSlotOK (calls : List Pending) (key : String) (a : Nat) (h : ElementHolder) :
    Prop where
  keyed : ∃ e, h.element = some e ∧ e.key = key
  isOpen : h.lockQueue.closed = false
  gate : h.locked = true → h.lockQueue.buf = none
  quiet : (h.locked = true ∨ h.lockQueue.buf ≠ none) →
    ∀ (i : Nat) (p : Pending), calls[i]? = some p → p.carries a = false
  one : ∀ (i j : Nat) (pi pj : Pending), calls[i]? = some pi → calls[j]? = some pj →
    pi.carries a = true → pj.carries a = true → i = j

/-- The invariant between sections: every address in the Go map has a holder that
satisfies `SecSlotOK`, and a carried token comes from a holder on the heap. -/
def SecInv (c : Conc) : Prop :=
  (∀ k a, mapGet c.map.m k = some a →
    ∃ h, c.map.heap[a]? = some h ∧ SecSlotOK c.calls k a h) ∧
  ∀ (i : Nat) (p : Pending) (a : Nat), c.calls[i]? = some p → p.carries a = true →
    a < c.map.heap.length

/-! ## Concrete data -/

/-- The first test element of `TestLockedMapAdd`. -/
def e1 : Element := { ref := 1, key := "key1" }

/-- The map after `Add(e1)`. -/
def mapAdded : LockedMap :=
  { m := [("key1", 0)],
    heap := [{ element := some e1, lockedTransactionId := 0, locked := false,
               lockQueue := { buf := some 1, closed := false } }] }

/-- The map after `Add(e1)` and `Lock("key1")`. -/
def mapLocked : LockedMap :=
  { m := [("key1", 0)],
    heap := [{ element := some e1, lockedTransactionId := 2, locked := true,
               lockQueue := { buf := none, closed := false } }] }

/-- The loan `Lock("key1")` returns on `mapAdded`. -/
def loan1 : ElementLoan := { element := some e1, transactionId := 2 }

/-- The map after `Add(e1)`, `Lock("key1")` and `Unlock` of the loan. -/
def mapUnlocked : LockedMap :=
  { m := [("key1", 0)],
    heap := [{ element := some e1, lockedTransactionId := 2, locked := false,
               lockQueue := { buf := some 2, closed := false } }] }

/-- The client state after `Add(e1)` and `Lock("key1")`: one issued loan. -/
def sysLocked : Sys := { map := mapLocked, loans := [loan1] }

/-- The map after `Add(e1)` and `Delete("key1")`: the holder is off the map, its
queue closed. -/
def mapDeleted : LockedMap :=
  { m := [],
    heap := [{ element := some e1, lockedTransactionId := 2, locked := true,
               lockQueue := { buf := none, closed := true } }] }

/-- The loan `loan1` as a successful `Unlock` leaves it. -/
def loanSpent : ElementLoan := { element := none, transactionId := 2 }

/-- The end of the test with two workers: both have ended, `e1.a` is 2. -/
def raceDone2 : Race :=
  { map := { m := [("key1", 0)],
             heap := [{ element := some e1, lockedTransactionId := 3, locked := false,
                        lockQueue := { buf := some 3, closed := false } }] },
    a := 2, workers := [.done, .done] }

/-- After `Add(e1)`, a `Lock("key1")` has received the token and not yet run its second
critical section: the holder is not held and its gate is empty. -/
def concMid : Conc :=
  { map := { m := [("key1", 0)],
             heap := [{ element := some e1, lockedTransactionId := 0, locked := false,
                        lockQueue := { buf := none, closed := false } }] },
    calls := [.got 0 (some 1) none] }

/-- The client state after `Add(e1)`. -/
def sysAdded : Sys := { map := mapAdded, loans := [] }

/-- The client state after `Add(e1)`, `Lock("key1")` and `Unlock` of the loan. -/
def sysUnlocked : Sys := { map := mapUnlocked, loans := [loanSpent] }


/-! ## Go map lemmas -/

theorem mapGet_mapDelete_self (m : List (String × Nat)) (k : String) :
    mapGet (mapDelete m k) k = none := by
  induction m with
  | nil => rfl
  | cons p r ih =>
    obtain ⟨k1, a⟩ := p
    by_cases hk : k1 = k
    · simp [mapDelete, hk, ih]
    · simp [mapDelete, hk, mapGet, ih]

theorem mapGet_mapDelete_ne (m : List (String × Nat)) {k k1 : String} (h : k1 ≠ k) :
    mapGet (mapDelete m k) k1 = mapGet m k1 := by
  induction m with
  | nil => rfl
  | cons p r ih =>
    obtain ⟨k2, a⟩ := p
    by_cases hk : k2 = k
    · subst hk
      have hk1 : ¬ k2 = k1 := fun h1 => h h1.symm
      simp [mapDelete, mapGet, hk1, ih]
    · by_cases hk1 : k2 = k1
      · subst hk1
        simp [mapDelete, hk, mapGet]
      · simp [mapDelete, hk, mapGet, hk1, ih]

theorem mapGet_mapSet_self (m : List (String × Nat)) (k : String) (a : Nat) :
    mapGet (mapSet m k a) k = some a := by
  simp [mapSet, mapGet]

theorem mapGet_mapSet_ne (m : List (String × Nat)) {k k1 : String} (a : Nat) (h : k1 ≠ k) :
    mapGet (mapSet m k a) k1 = mapGet m k1 := by
  have hk : ¬ k = k1 := fun h1 => h h1.symm
  simp [mapSet, mapGet, hk, mapGet_mapDelete_ne m h]

/-! ## What each call computes -/

theorem slot_eq {m : LockedMap} {k : String} {a : Nat} (h : mapGet m.m k = some a) :
    slot m k = m.heap[a]? := by
  simp [slot, h]

theorem slot_some {m : LockedMap} {k : String} {eh : ElementHolder} (h : slot m k = some eh) :
    ∃ a, mapGet m.m k = some a ∧ m.heap[a]? = some eh := by
  unfold slot at h
  split at h
  · exact absurd h (by simp)
  · next a ha => exact ⟨a, ha, h⟩

theorem Lock_acquire {m : LockedMap} {k : String} {a : Nat} {eh : ElementHolder} {t : Int}
    (ha : mapGet m.m k = some a) (hh : m.heap[a]? = some eh) (ht : eh.lockQueue.buf = some t) :
    Lock m k = .ret
      ({ m := m.m,
         heap := m.heap.set a
                   { element := eh.element, lockedTransactionId := wrapInt (t + 1),
                     locked := true,
                     lockQueue := { buf := none, closed := eh.lockQueue.closed } } },
       some { element := eh.element, transactionId := wrapInt (t + 1) }) := by
  simp [Lock, ha, hh, Chan.recv, ht]

theorem Lock_ret_none {m m1 : LockedMap} {k : String} (h : Lock m k = .ret (m1, none)) :
    m1 = m := by
  unfold Lock at h
  split at h
  · simp at h; exact h.symm
  · split at h
    · simp at h
    · split at h <;> simp at h
      exact h.symm

theorem Lock_ret_some {m m1 : LockedMap} {k : String} {loan : ElementLoan}
    (h : Lock m k = .ret (m1, some loan)) :
    ∃ a eh t, mapGet m.m k = some a ∧ m.heap[a]? = some eh ∧ eh.lockQueue.buf = some t ∧
      m1 = { m := m.m,
             heap := m.heap.set a
                       { element := eh.element, lockedTransactionId := wrapInt (t + 1),
                         locked := true,
                         lockQueue := { buf := none, closed := eh.lockQueue.closed } } } ∧
      loan = { element := eh.element, transactionId := wrapInt (t + 1) } := by
  cases ha : mapGet m.m k with
  | none => simp [Lock, ha] at h
  | some a =>
    cases hh : m.heap[a]? with
    | none => simp [Lock, ha, hh] at h
    | some eh =>
      cases ht : eh.lockQueue.buf with
      | none =>
        cases hc : eh.lockQueue.closed <;> simp [Lock, ha, hh, Chan.recv, ht, hc] at h
      | some t =>
        rw [Lock_acquire ha hh ht] at h
        simp only [Outcome.ret.injEq, Prod.mk.injEq, Option.some.injEq] at h
        exact ⟨a, eh, t, rfl, hh, ht, h.1.symm, h.2.symm⟩

theorem Unlock_release {m : LockedMap} {loan : ElementLoan} {e : Element} {a : Nat}
    {eh : ElementHolder} (he : loan.element = some e) (ha : mapGet m.m e.key = some a)
    (hh : m.heap[a]? = some eh) (hl : eh.locked = true)
    (ht : eh.lockedTransactionId = loan.transactionId) (hq : eh.lockQueue.buf = none)
    (hc : eh.lockQueue.closed = false) :
    Unlock m loan = .ret
      ({ m := m.m,
         heap := m.heap.set a
                   { element := eh.element, lockedTransactionId := eh.lockedTransactionId,
                     locked := false,
                     lockQueue := { buf := some eh.lockedTransactionId, closed := false } } },
       { element := none, transactionId := loan.transactionId }, true) := by
  simp [Unlock, he, ha, hh, hl, ht, Chan.send, hq, hc]

theorem Unlock_ret_true {m m1 : LockedMap} {loan loan1 : ElementLoan}
    (h : Unlock m loan = .ret (m1, loan1, true)) :
    ∃ e a eh, loan.element = some e ∧ mapGet m.m e.key = some a ∧ m.heap[a]? = some eh ∧
      eh.locked = true ∧ eh.lockedTransactionId = loan.transactionId ∧
      eh.lockQueue.buf = none ∧ eh.lockQueue.closed = false ∧
      m1 = { m := m.m,
             heap := m.heap.set a
                       { element := eh.element, lockedTransactionId := eh.lockedTransactionId,
                         locked := false,
                         lockQueue := { buf := some eh.lockedTransactionId,
                                        closed := false } } } ∧
      loan1 = { element := none, transactionId := loan.transactionId } := by
  cases he : loan.element with
  | none => simp [Unlock, he] at h
  | some e =>
    cases ha : mapGet m.m e.key with
    | none => simp [Unlock, he, ha] at h
    | some a =>
      cases hh : m.heap[a]? with
      | none => simp [Unlock, he, ha, hh] at h
      | some eh =>
        cases hl : eh.locked with
        | false => simp [Unlock, he, ha, hh, hl] at h
        | true =>
          by_cases ht : eh.lockedTransactionId = loan.transactionId
          · cases hc : eh.lockQueue.closed with
            | true => simp [Unlock, he, ha, hh, hl, ht, Chan.send, hc] at h
            | false =>
              cases hq : eh.lockQueue.buf with
              | some v => simp [Unlock, he, ha, hh, hl, ht, Chan.send, hc, hq] at h
              | none =>
                rw [Unlock_release he ha hh hl ht hq hc] at h
                simp only [Outcome.ret.injEq, Prod.mk.injEq, and_true] at h
                exact ⟨e, a, eh, rfl, ha, hh, hl, ht, hq, hc, h.1.symm, h.2.symm⟩
          · simp [Unlock, he, ha, hh, hl, ht] at h

theorem Unlock_ret_false {m m1 : LockedMap} {loan loan1 : ElementLoan}
    (h : Unlock m loan = .ret (m1, loan1, false)) : m1 = m ∧ loan1 = loan := by
  unfold Unlock at h
  split at h
  · simp at h
  · split at h
    · simp at h; exact ⟨h.1.symm, h.2.symm⟩
    · split at h
      · simp at h
      · split at h
        · simp at h; exact ⟨h.1.symm, h.2.symm⟩
        · split at h
          · split at h <;> simp at h
          · simp at h; exact ⟨h.1.symm, h.2.symm⟩

theorem Add_present {m : LockedMap} {e : Element} {a : Nat}
    (h : mapGet m.m e.key = some a) : Add m (some e) = .ret (m, false) := by
  simp [Add, h]

theorem Add_absent {m : LockedMap} {e : Element} (h : mapGet m.m e.key = none) :
    Add m (some e) = .ret
      ({ m := mapSet m.m e.key m.heap.length,
         heap := m.heap ++
                   [{ element := some e, lockedTransactionId := 0, locked := false,
                      lockQueue := { buf := some 1, closed := false } }] }, true) := by
  simp [Add, h, Chan.send, Chan.make]

theorem Add_ret {m m1 : LockedMap} {v : Option Element} {b : Bool}
    (h : Add m v = .ret (m1, b)) :
    ∃ e, v = some e ∧
      ((∃ a, mapGet m.m e.key = some a ∧ m1 = m ∧ b = false) ∨
       (mapGet m.m e.key = none ∧ b = true ∧
        m1 = { m := mapSet m.m e.key m.heap.length,
               heap := m.heap ++
                         [{ element := some e, lockedTransactionId := 0, locked := false,
                            lockQueue := { buf := some 1, closed := false } }] })) := by
  cases v with
  | none => simp [Add] at h
  | some e =>
    refine ⟨e, rfl, ?_⟩
    cases ha : mapGet m.m e.key with
    | some a =>
      rw [Add_present ha] at h
      simp only [Outcome.ret.injEq, Prod.mk.injEq] at h
      exact Or.inl ⟨a, rfl, h.1.symm, h.2.symm⟩
    | none =>
      rw [Add_absent ha] at h
      simp only [Outcome.ret.injEq, Prod.mk.injEq] at h
      exact Or.inr ⟨rfl, h.2.symm, h.1.symm⟩

theorem Delete_free {m : LockedMap} {k : String} {a : Nat} {eh : ElementHolder} {t : Int}
    {e : Element} (ha : mapGet m.m k = some a) (hh : m.heap[a]? = some eh)
    (ht : eh.lockQueue.buf = some t) (he : eh.element = some e)
    (hc : eh.lockQueue.closed = false) :
    Delete m k = .ret
      ({ m := mapDelete m.m e.key,
         heap := m.heap.set a
                   { element := eh.element, lockedTransactionId := wrapInt (t + 1),
                     locked := true,
                     lockQueue := { buf := none, closed := true } } }, true) := by
  have hlt : a < m.heap.length := by
    rcases lt_or_le a m.heap.length with h1 | h1
    · exact h1
    · rw [List.getElem?_eq_none h1] at hh
      exact absurd hh (by simp)
  simp [Delete, Lock_acquire ha hh ht, ha, List.getElem?_set, hlt, he, Chan.close, hc]

theorem Delete_ret {m m1 : LockedMap} {k : String} {b : Bool}
    (h : Delete m k = .ret (m1, b)) :
    (b = false ∧ m1 = m) ∨
    (b = true ∧ ∃ a eh t e, mapGet m.m k = some a ∧ m.heap[a]? = some eh ∧
      eh.lockQueue.buf = some t ∧ eh.element = some e ∧ eh.lockQueue.closed = false ∧
      m1 = { m := mapDelete m.m e.key,
             heap := m.heap.set a
                       { element := eh.element, lockedTransactionId := wrapInt (t + 1),
                         locked := true,
                         lockQueue := { buf := none, closed := true } } }) := by
  cases hl : Lock m k with
  | block => simp [Delete, hl] at h
  | fault => simp [Delete, hl] at h
  | ret r =>
    obtain ⟨m2, r2⟩ := r
    cases r2 with
    | none =>
      have hm := Lock_ret_none hl
      simp only [Delete, hl, Outcome.ret.injEq, Prod.mk.injEq] at h
      exact Or.inl ⟨h.2.symm, by rw [← h.1, hm]⟩
    | some loan =>
      obtain ⟨a, eh, t, ha, hh, ht, hm2, _⟩ := Lock_ret_some hl
      have hlt : a < m.heap.length := by
        rcases lt_or_le a m.heap.length with h1 | h1
        · exact h1
        · rw [List.getElem?_eq_none h1] at hh
          exact absurd hh (by simp)
      cases he : eh.element with
      | none =>
        simp [Delete, hl, hm2, ha, List.getElem?_set, hlt, he] at h
      | some e =>
        cases hc : eh.lockQueue.closed with
        | true => simp [Delete, hl, hm2, ha, List.getElem?_set, hlt, he, Chan.close, hc] at h
        | false =>
          rw [Delete_free ha hh ht he hc] at h
          simp only [Outcome.ret.injEq, Prod.mk.injEq] at h
          exact Or.inr ⟨h.2.symm, a, eh, t, e, ha, hh, ht, he, hc, by rw [← h.1, he]⟩

theorem wrapInt_succ {t : Int} (hlo : -(2 : Int) ^ 63 ≤ t) (hhi : t < maxInt) :
    wrapInt (t + 1) = t + 1 := by
  simp only [wrapInt, maxInt] at *
  omega

theorem getElem?_lt {α : Type} {l : List α} {a : Nat} {x : α} (h : l[a]? = some x) :
    a < l.length := by
  rcases lt_or_le a l.length with h1 | h1
  · exact h1
  · rw [List.getElem?_eq_none h1] at h
    exact absurd h (by simp)

theorem getElem?_set_same {α : Type} {l : List α} {a : Nat} (x : α) (h : a < l.length) :
    (l.set a x)[a]? = some x := by
  simp [List.getElem?_set, h]

/-! ## The representation invariant is kept by every call -/

theorem WF_addr_ne {m : LockedMap} (hwf : WF m) {k k1 : String} {a a1 : Nat}
    (ha : mapGet m.m k = some a) (ha1 : mapGet m.m k1 = some a1) (hne : k1 ≠ k) :
    a ≠ a1 := by
  intro h
  subst h
  obtain ⟨eh, hh, hok⟩ := hwf _ _ ha
  obtain ⟨eh1, hh1, hok1⟩ := hwf _ _ ha1
  rw [hh] at hh1
  cases hh1
  obtain ⟨e, he, hek⟩ := hok.keyed
  obtain ⟨e1, he1, hek1⟩ := hok1.keyed
  rw [he] at he1
  cases he1
  exact hne (hek1.symm.trans hek)

theorem slot_set_ne {m : LockedMap} (hwf : WF m) {k k1 : String} {a : Nat}
    (x : ElementHolder) (ha : mapGet m.m k = some a) (hne : k1 ≠ k) :
    slot { m := m.m, heap := m.heap.set a x } k1 = slot m k1 := by
  cases ha1 : mapGet m.m k1 with
  | none => simp [slot, ha1]
  | some a1 =>
    have hne1 := WF_addr_ne hwf ha ha1 hne
    simp [slot, ha1, List.getElem?_set, hne1]

theorem WF_set {m : LockedMap} (hwf : WF m) {k : String} {a : Nat} (x : ElementHolder)
    (ha : mapGet m.m k = some a) (hx : SlotOK k x) :
    WF { m := m.m, heap := m.heap.set a x } := by
  intro k1 a1 h1
  have h2 : mapGet m.m k1 = some a1 := h1
  by_cases hk : k1 = k
  · subst hk
    rw [ha] at h2
    cases h2
    obtain ⟨eh, hh, _⟩ := hwf _ _ ha
    exact ⟨x, getElem?_set_same _ (getElem?_lt hh), hx⟩
  · obtain ⟨eh1, hh1, hok1⟩ := hwf _ _ h2
    refine ⟨eh1, ?_, hok1⟩
    have hne1 := WF_addr_ne hwf ha h2 hk
    simp [List.getElem?_set, hne1, hh1]

theorem WF_CreateLockedMap : WF CreateLockedMap := by
  intro k a h
  simp [CreateLockedMap, mapGet] at h

theorem slot_Add_ne {m : LockedMap} (hwf : WF m) {k1 : String} (e : Element)
    (x : ElementHolder) (hne : k1 ≠ e.key) :
    slot { m := mapSet m.m e.key m.heap.length, heap := m.heap ++ [x] } k1 = slot m k1 := by
  have hg : mapGet (mapSet m.m e.key m.heap.length) k1 = mapGet m.m k1 :=
    mapGet_mapSet_ne _ _ hne
  cases ha1 : mapGet m.m k1 with
  | none => simp [slot, hg, ha1]
  | some a1 =>
    obtain ⟨eh1, hh1, _⟩ := hwf _ _ ha1
    simp [slot, hg, ha1, List.getElem?_append_left (getElem?_lt hh1)]

theorem WF_Add {m m1 : LockedMap} {v : Option Element} {b : Bool} (hwf : WF m)
    (h : Add m v = .ret (m1, b)) : WF m1 := by
  obtain ⟨e, _, h1 | h1⟩ := Add_ret h
  · obtain ⟨_, _, hm, _⟩ := h1
    rw [hm]
    exact hwf
  · obtain ⟨hnone, _, hm⟩ := h1
    subst hm
    intro k1 a1 hk1
    by_cases hk : k1 = e.key
    · subst hk
      have hk2 : mapGet (mapSet m.m e.key m.heap.length) e.key = some a1 := hk1
      rw [mapGet_mapSet_self] at hk2
      cases hk2
      exact ⟨_, List.getElem?_concat_length _ _, ⟨e, rfl, rfl⟩, rfl, by simp⟩
    · have hk2 : mapGet (mapSet m.m e.key m.heap.length) k1 = some a1 := hk1
      rw [mapGet_mapSet_ne _ _ hk] at hk2
      obtain ⟨eh1, hh1, hok1⟩ := hwf _ _ hk2
      refine ⟨eh1, ?_, hok1⟩
      show (m.heap ++ _)[a1]? = some eh1
      rw [List.getElem?_append_left (getElem?_lt hh1)]
      exact hh1

theorem WF_Lock {m m1 : LockedMap} {k : String} {r : Option ElementLoan} (hwf : WF m)
    (h : Lock m k = .ret (m1, r)) : WF m1 := by
  cases r with
  | none => rw [Lock_ret_none h]; exact hwf
  | some loan =>
    obtain ⟨a, eh, t, ha, hh, _, hm, _⟩ := Lock_ret_some h
    obtain ⟨eh0, hh0, hok⟩ := hwf _ _ ha
    rw [hh] at hh0
    cases hh0
    subst hm
    exact WF_set hwf _ ha ⟨hok.keyed, hok.isOpen, by simp⟩

theorem WF_Unlock {m m1 : LockedMap} {loan loan1 : ElementLoan} {b : Bool} (hwf : WF m)
    (h : Unlock m loan = .ret (m1, loan1, b)) : WF m1 := by
  cases b with
  | false => rw [(Unlock_ret_false h).1]; exact hwf
  | true =>
    obtain ⟨e, a, eh, _, ha, hh, _, _, _, _, hm, _⟩ := Unlock_ret_true h
    obtain ⟨eh0, hh0, hok⟩ := hwf _ _ ha
    rw [hh] at hh0
    cases hh0
    subst hm
    exact WF_set hwf _ ha ⟨hok.keyed, rfl, by simp⟩

theorem slot_Delete_ne {m : LockedMap} (hwf : WF m) {k k1 : String} {a : Nat}
    (x : ElementHolder) (ha : mapGet m.m k = some a) (hne : k1 ≠ k) :
    slot { m := mapDelete m.m k, heap := m.heap.set a x } k1 = slot m k1 := by
  have hg : mapGet (mapDelete m.m k) k1 = mapGet m.m k1 := mapGet_mapDelete_ne _ hne
  cases ha1 : mapGet m.m k1 with
  | none => simp [slot, hg, ha1]
  | some a1 =>
    have hne1 := WF_addr_ne hwf ha ha1 hne
    simp [slot, hg, ha1, List.getElem?_set, hne1]

theorem WF_Delete {m m1 : LockedMap} {k : String} {b : Bool} (hwf : WF m)
    (h : Delete m k = .ret (m1, b)) : WF m1 := by
  rcases Delete_ret h with ⟨_, hm⟩ | ⟨_, a, eh, t, e, ha, hh, _, he, _, hm⟩
  · rw [hm]
    exact hwf
  · obtain ⟨eh0, hh0, hok⟩ := hwf _ _ ha
    rw [hh] at hh0
    cases hh0
    obtain ⟨e0, he0, hek⟩ := hok.keyed
    rw [he] at he0
    cases he0
    subst hm
    intro k1 a1 hk1
    have hk2 : mapGet (mapDelete m.m e.key) k1 = some a1 := hk1
    have hne : k1 ≠ e.key := by
      intro hk
      rw [hk, mapGet_mapDelete_self] at hk2
      exact absurd hk2 (by simp)
    rw [mapGet_mapDelete_ne _ hne] at hk2
    obtain ⟨eh1, hh1, hok1⟩ := hwf _ _ hk2
    refine ⟨eh1, ?_, hok1⟩
    have hne1 := WF_addr_ne hwf ha hk2 (by rw [← hek]; exact hne)
    simp [List.getElem?_set, hne1, hh1]

theorem step_cases {s s1 : Sys} {c : Call} (h : step s c = some s1) :
    (∃ v m1 b, c = .add v ∧ Add s.map v = .ret (m1, b) ∧
      s1 = { map := m1, loans := s.loans }) ∨
    (∃ k m1 r, c = .lock k ∧ Lock s.map k = .ret (m1, r) ∧
      s1 = { map := m1, loans := s.loans ++ r.toList }) ∨
    (∃ i loan m1 loan1 b, c = .unlock i ∧ s.loans[i]? = some loan ∧
      Unlock s.map loan = .ret (m1, loan1, b) ∧
      s1 = { map := m1, loans := s.loans.set i loan1 }) ∨
    (∃ k m1 b, c = .delete k ∧ Delete s.map k = .ret (m1, b) ∧
      s1 = { map := m1, loans := s.loans }) := by
  cases c with
  | add v =>
    cases ho : Add s.map v with
    | ret r =>
      obtain ⟨m1, b⟩ := r
      simp only [step, ho, Option.some.injEq] at h
      exact Or.inl ⟨v, m1, b, rfl, ho, h.symm⟩
    | block => simp [step, ho] at h
    | fault => simp [step, ho] at h
  | lock k =>
    cases ho : Lock s.map k with
    | ret r =>
      obtain ⟨m1, r1⟩ := r
      simp only [step, ho, Option.some.injEq] at h
      exact Or.inr (Or.inl ⟨k, m1, r1, rfl, ho, h.symm⟩)
    | block => simp [step, ho] at h
    | fault => simp [step, ho] at h
  | unlock i =>
    cases hl : s.loans[i]? with
    | none => simp [step, hl] at h
    | some loan =>
      cases ho : Unlock s.map loan with
      | ret r =>
        obtain ⟨m1, loan1, b⟩ := r
        simp only [step, hl, ho, Option.some.injEq] at h
        exact Or.inr (Or.inr (Or.inl ⟨i, loan, m1, loan1, b, rfl, hl, ho, h.symm⟩))
      | block => simp [step, hl, ho] at h
      | fault => simp [step, hl, ho] at h
  | delete k =>
    cases ho : Delete s.map k with
    | ret r =>
      obtain ⟨m1, b⟩ := r
      simp only [step, ho, Option.some.injEq] at h
      exact Or.inr (Or.inr (Or.inr ⟨k, m1, b, rfl, ho, h.symm⟩))
    | block => simp [step, ho] at h
    | fault => simp [step, ho] at h

theorem step_WF {s s1 : Sys} {c : Call} (hwf : WF s.map) (h : step s c = some s1) :
    WF s1.map := by
  rcases step_cases h with ⟨v, m1, b, _, ho, hs⟩ | ⟨k, m1, r, _, ho, hs⟩ |
    ⟨i, loan, m1, loan1, b, _, _, ho, hs⟩ | ⟨k, m1, b, _, ho, hs⟩
  · subst hs; exact WF_Add hwf ho
  · subst hs; exact WF_Lock hwf ho
  · subst hs; exact WF_Unlock hwf ho
  · subst hs; exact WF_Delete hwf ho

theorem Reachable_WF {s : Sys} (h : Reachable s) : WF s.map := by
  induction h with
  | init => exact WF_CreateLockedMap
  | next c _ hstep ih => exact step_WF ih hstep

theorem Reachable_run {s s1 : Sys} (cs : List Call) (h : Reachable s)
    (hr : run s cs = some s1) : Reachable s1 := by
  induction cs generalizing s with
  | nil =>
    simp only [run, Option.some.injEq] at hr
    rw [← hr]
    exact h
  | cons c cs ih =>
    cases hs : step s c with
    | none => simp [run, hs] at hr
    | some s2 =>
      simp only [run, hs] at hr
      exact ih (Reachable.next c h hs) hr

/-! ## The issued loans -/

theorem LoansOK_frame {s : Sys} {m1 : LockedMap} (h : LoansOK s)
    (hf : ∀ k0 h0, slot s.map k0 = some h0 → h0.locked = true → slot m1 k0 = some h0) :
    LoansOK { map := m1, loans := s.loans } := by
  intro i l e hi he
  obtain ⟨⟨h0, hs0, hl0, ht0⟩, huniq⟩ := h i l e hi he
  exact ⟨⟨h0, hf _ _ hs0 hl0, hl0, ht0⟩, huniq⟩

theorem LoansOK_free {s : Sys} (h : LoansOK s) {k : String} {eh : ElementHolder}
    (hs : slot s.map k = some eh) (hfree : eh.locked = false) (i : Nat) (l : ElementLoan)
    (e : Element) (hi : s.loans[i]? = some l) (he : l.element = some e) : e.key ≠ k := by
  intro hk
  obtain ⟨⟨h0, hs0, hl0, _⟩, _⟩ := h i l e hi he
  rw [hk, hs] at hs0
  cases hs0
  rw [hfree] at hl0
  exact absurd hl0 (by simp)

theorem getElem?_concat_cases {α : Type} {l : List α} {x y : α} {i : Nat}
    (h : (l ++ [x])[i]? = some y) : l[i]? = some y ∨ (i = l.length ∧ y = x) := by
  rcases lt_trichotomy i l.length with hlt | heq | hgt
  · rw [List.getElem?_append_left hlt] at h
    exact Or.inl h
  · subst heq
    rw [List.getElem?_concat_length] at h
    cases h
    exact Or.inr ⟨rfl, rfl⟩
  · rw [List.getElem?_eq_none (by simp; omega)] at h
    exact absurd h (by simp)

theorem LoansOK_issue {m1 : LockedMap} {loans : List ElementLoan} {loan : ElementLoan}
    {e : Element} {eh : ElementHolder} (h : LoansOK { map := m1, loans := loans })
    (he : loan.element = some e) (hs : slot m1 e.key = some eh) (hl : eh.locked = true)
    (ht : eh.lockedTransactionId = loan.transactionId)
    (hnew : ∀ (i : Nat) (l : ElementLoan) (el : Element),
      loans[i]? = some l → l.element = some el → el.key ≠ e.key) :
    LoansOK { map := m1, loans := loans ++ [loan] } := by
  intro i l el hi hel
  rcases getElem?_concat_cases hi with hi1 | ⟨hi1, hi2⟩
  · obtain ⟨hlive, huniq⟩ := h i l el hi1 hel
    refine ⟨hlive, ?_⟩
    intro j l1 el1 hj hel1 hk
    rcases getElem?_concat_cases hj with hj1 | ⟨_, hj2⟩
    · exact huniq j l1 el1 hj1 hel1 hk
    · subst hj2
      rw [he] at hel1
      cases hel1
      exact absurd hk.symm (hnew i l el hi1 hel)
  · subst hi2
    rw [he] at hel
    cases hel
    refine ⟨⟨eh, hs, hl, ht⟩, ?_⟩
    intro j l1 el1 hj hel1 hk
    rcases getElem?_concat_cases hj with hj1 | ⟨hj1, _⟩
    · exact absurd hk (hnew j l1 el1 hj1 hel1)
    · rw [hi1, hj1]

theorem LoansOK_release {s : Sys} {m1 : LockedMap} {i : Nat} {loan : ElementLoan}
    {e : Element} (t : Int) (h : LoansOK s) (hi : s.loans[i]? = some loan)
    (he : loan.element = some e)
    (hf : ∀ k1, k1 ≠ e.key → slot m1 k1 = slot s.map k1) :
    LoansOK { map := m1, loans := s.loans.set i { element := none, transactionId := t } } := by
  have hget : ∀ (j : Nat) (l : ElementLoan) (el : Element),
      (s.loans.set i { element := none, transactionId := t })[j]? = some l →
      l.element = some el → j ≠ i ∧ s.loans[j]? = some l := by
    intro j l el hj hel
    rw [List.getElem?_set] at hj
    by_cases hij : i = j
    · rw [if_pos hij] at hj
      split at hj
      · cases hj
        exact absurd hel (by simp)
      · exact absurd hj (by simp)
    · rw [if_neg hij] at hj
      exact ⟨fun h1 => hij h1.symm, hj⟩
  intro j l el hj hel
  obtain ⟨hji, hj1⟩ := hget j l el hj hel
  obtain ⟨⟨h0, hs0, hl0, ht0⟩, huniq⟩ := h j l el hj1 hel
  have hne : el.key ≠ e.key := fun hk => hji (huniq i loan e hi he hk.symm)
  refine ⟨⟨h0, by rw [hf _ hne]; exact hs0, hl0, ht0⟩, ?_⟩
  intro j1 l1 el1 hj2 hel1 hk
  exact huniq j1 l1 el1 (hget j1 l1 el1 hj2 hel1).2 hel1 hk

theorem set_getElem?_same {α : Type} {l : List α} {i : Nat} {x : α} (h : l[i]? = some x) :
    l.set i x = l := by
  apply List.ext_getElem?
  intro j
  rw [List.getElem?_set]
  by_cases hij : i = j
  · subst hij
    simp [getElem?_lt h, h]
  · simp [hij]

theorem step_LoansOK {s s1 : Sys} {c : Call} (hwf : WF s.map) (hl : LoansOK s)
    (h : step s c = some s1) : LoansOK s1 := by
  rcases step_cases h with ⟨v, m1, b, _, ho, hs⟩ | ⟨k, m1, r, _, ho, hs⟩ |
    ⟨i, loan, m1, loan1, b, _, hi, ho, hs⟩ | ⟨k, m1, b, _, ho, hs⟩
  · subst hs
    obtain ⟨e, _, h1 | h1⟩ := Add_ret ho
    · obtain ⟨_, _, hm, _⟩ := h1
      subst hm
      exact hl
    · obtain ⟨hnone, _, hm⟩ := h1
      subst hm
      refine LoansOK_frame hl ?_
      intro k0 h0 hs0 _
      have hne : k0 ≠ e.key := by
        intro hk
        obtain ⟨a0, ha0, _⟩ := slot_some hs0
        rw [hk, hnone] at ha0
        exact absurd ha0 (by simp)
      rw [slot_Add_ne hwf e _ hne]
      exact hs0
  · subst hs
    cases r with
    | none =>
      rw [Lock_ret_none ho]
      simpa using hl
    | some loan =>
      obtain ⟨a, eh, t, ha, hh, ht, hm, hloan⟩ := Lock_ret_some ho
      obtain ⟨eh0, hh0, hok⟩ := hwf _ _ ha
      rw [hh] at hh0
      cases hh0
      obtain ⟨e, he, hek⟩ := hok.keyed
      have hsk : slot s.map k = some eh := by rw [slot_eq ha]; exact hh
      have hfree : eh.locked = false := by
        cases hlk : eh.locked with
        | false => rfl
        | true => rw [hok.gate.1 hlk] at ht; exact absurd ht (by simp)
      have hframe : ∀ k0 h0, slot s.map k0 = some h0 → h0.locked = true →
          slot m1 k0 = some h0 := by
        intro k0 h0 hs0 hl0
        have hne : k0 ≠ k := by
          intro hk
          rw [hk, hsk] at hs0
          cases hs0
          rw [hfree] at hl0
          exact absurd hl0 (by simp)
        rw [hm, slot_set_ne hwf _ ha hne]
        exact hs0
      have hold : LoansOK { map := m1, loans := s.loans } := LoansOK_frame hl hframe
      have hle : loan.element = some e := by rw [hloan]; exact he
      have hs1 : slot m1 e.key = some
          { element := eh.element, lockedTransactionId := wrapInt (t + 1), locked := true,
            lockQueue := { buf := none, closed := eh.lockQueue.closed } } := by
        rw [hm, hek, slot_eq (by exact ha)]
        exact getElem?_set_same _ (getElem?_lt hh)
      have hnew : ∀ (i : Nat) (l : ElementLoan) (el : Element),
          s.loans[i]? = some l → l.element = some el → el.key ≠ e.key := by
        intro i l el hi hel
        rw [hek]
        exact LoansOK_free hl hsk hfree i l el hi hel
      exact LoansOK_issue hold hle hs1 rfl (by rw [hloan]) hnew
  · subst hs
    cases b with
    | false =>
      obtain ⟨hm, hl1⟩ := Unlock_ret_false ho
      subst hm hl1
      rw [set_getElem?_same hi]
      exact hl
    | true =>
      obtain ⟨e, a, eh, he, ha, hh, _, _, _, _, hm, hl1⟩ := Unlock_ret_true ho
      subst hm hl1
      exact LoansOK_release _ hl hi he (fun k1 hne => slot_set_ne hwf _ ha hne)
  · subst hs
    rcases Delete_ret ho with ⟨_, hm⟩ | ⟨_, a, eh, t, e, ha, hh, ht, he, _, hm⟩
    · subst hm
      exact hl
    · obtain ⟨eh0, hh0, hok⟩ := hwf _ _ ha
      rw [hh] at hh0
      cases hh0
      obtain ⟨e0, he0, hek⟩ := hok.keyed
      rw [he] at he0
      cases he0
      have hsk : slot s.map k = some eh := by rw [slot_eq ha]; exact hh
      have hfree : eh.locked = false := by
        cases hlk : eh.locked with
        | false => rfl
        | true => rw [hok.gate.1 hlk] at ht; exact absurd ht (by simp)
      subst hm
      refine LoansOK_frame hl ?_
      intro k0 h0 hs0 hl0
      have hne : k0 ≠ k := by
        intro hk
        rw [hk, hsk] at hs0
        cases hs0
        rw [hfree] at hl0
        exact absurd hl0 (by simp)
      rw [hek, slot_Delete_ne hwf _ ha hne]
      exact hs0

theorem Reachable_LoansOK {s : Sys} (h : Reachable s) : LoansOK s := by
  induction h with
  | init =>
    intro i l e hi _
    simp at hi
  | next c hr hstep ih => exact step_LoansOK (Reachable_WF hr) ih hstep

theorem Lock_slot_spec {m : LockedMap} {k : String} {eh : ElementHolder} {t : Int}
    (hs : slot m k = some eh) (ht : eh.lockQueue.buf = some t) :
    ∃ m1 loan eh1, Lock m k = .ret (m1, some loan) ∧
      loan = { element := eh.element, transactionId := wrapInt (t + 1) } ∧
      slot m1 k = some eh1 ∧
      eh1 = { element := eh.element, lockedTransactionId := wrapInt (t + 1), locked := true,
              lockQueue := { buf := none, closed := eh.lockQueue.closed } } := by
  obtain ⟨a, ha, hh⟩ := slot_some hs
  have hlt := getElem?_lt hh
  refine ⟨_, _, _, Lock_acquire ha hh ht, rfl, ?_, rfl⟩
  rw [slot_eq (by exact ha)]
  exact getElem?_set_same _ hlt

theorem Unlock_slot_spec {m : LockedMap} {loan : ElementLoan} {e : Element}
    {eh : ElementHolder} (he : loan.element = some e) (hs : slot m e.key = some eh)
    (hl : eh.locked = true) (ht : eh.lockedTransactionId = loan.transactionId)
    (hq : eh.lockQueue.buf = none) (hc : eh.lockQueue.closed = false) :
    ∃ m1 eh1, Unlock m loan =
        .ret (m1, { element := none, transactionId := loan.transactionId }, true) ∧
      slot m1 e.key = some eh1 ∧
      eh1 = { element := eh.element, lockedTransactionId := eh.lockedTransactionId,
              locked := false,
              lockQueue := { buf := some eh.lockedTransactionId, closed := false } } := by
  obtain ⟨a, ha, hh⟩ := slot_some hs
  have hlt := getElem?_lt hh
  refine ⟨_, _, Unlock_release he ha hh hl ht hq hc, ?_, rfl⟩
  rw [slot_eq (by exact ha)]
  exact getElem?_set_same _ hlt

/-! ## Release -/

/-- C4: whenever `Unlock(loan)` returns false, the map is what it was before the call:
the key-to-slot association and every slot's element, held flag, token and gate. -/
theorem Unlock_false_no_change (m m1 : LockedMap) (loan loan1 : ElementLoan)
    (h : Unlock m loan = .ret (m1, loan1, false)) :
    m1 = m ∧ ∀ k, mapGet m1.m k = mapGet m.m k ∧ slot m1 k = slot m k := by
  have hm := (Unlock_ret_false h).1
  subst hm
  exact ⟨rfl, fun _ => ⟨rfl, rfl⟩⟩

theorem Unlock_false_no_change_witness :
    Unlock mapAdded loan1 = .ret (mapAdded, loan1, false) ∧
    (mapAdded = mapAdded ∧
      ∀ k, mapGet mapAdded.m k = mapGet mapAdded.m k ∧ slot mapAdded k = slot mapAdded k) :=
  ⟨by decide, Unlock_false_no_change mapAdded mapAdded loan1 loan1 (by decide)⟩

/-- C5: when `Unlock(loan)` returns true, the slot under the loan's key is afterwards not
held, its gate is open and holds exactly the token the loan carried, the slot's token
and element are what they were, and `loan.Element()` returns nil. -/
theorem Unlock_true_post (m m1 : LockedMap) (loan loan1 : ElementLoan)
    (h : Unlock m loan = .ret (m1, loan1, true)) :
    ∃ e eh eh1, loan.element = some e ∧ slot m e.key = some eh ∧ slot m1 e.key = some eh1 ∧
      eh1.locked = false ∧
      eh1.lockQueue = { buf := some loan.transactionId, closed := false } ∧
      eh1.lockedTransactionId = eh.lockedTransactionId ∧
      eh1.lockedTransactionId = loan.transactionId ∧
      eh1.element = eh.element ∧
      loan1.Element = none := by
  obtain ⟨e, a, eh, he, ha, hh, _, ht, _, _, hm1, hl1⟩ := Unlock_ret_true h
  have hlt := getElem?_lt hh
  refine ⟨e, eh, { element := eh.element, lockedTransactionId := eh.lockedTransactionId,
                   locked := false,
                   lockQueue := { buf := some eh.lockedTransactionId, closed := false } },
    he, ?_, ?_, rfl, ?_, rfl, ht, rfl, ?_⟩
  · rw [slot_eq ha, hh]
  · subst hm1
    rw [slot_eq (by exact ha)]
    simp [List.getElem?_set, hlt]
  · simp [ht]
  · subst hl1
    rfl

theorem Unlock_true_post_witness :
    Unlock mapLocked loan1 = .ret (mapUnlocked, loanSpent, true) ∧
    ∃ e eh eh1, loan1.element = some e ∧ slot mapLocked e.key = some eh ∧
      slot mapUnlocked e.key = some eh1 ∧
      eh1.locked = false ∧
      eh1.lockQueue = { buf := some loan1.transactionId, closed := false } ∧
      eh1.lockedTransactionId = eh.lockedTransactionId ∧
      eh1.lockedTransactionId = loan1.transactionId ∧
      eh1.element = eh.element ∧
      loanSpent.Element = none :=
  ⟨by decide, Unlock_true_post mapLocked mapUnlocked loan1 loanSpent (by decide)⟩

/-- A loan that `Unlock` has accepted makes the next `Unlock` panic: its element is nil
and `loan.element.Key()` is a call on a nil interface. -/
theorem Unlock_spent_faults {m m1 : LockedMap} {loan loan1 : ElementLoan}
    (h : Unlock m loan = .ret (m1, loan1, true)) : Unlock m1 loan1 = .fault := by
  obtain ⟨_, _, _, _, _, _, _, _, _, _, _, hl1⟩ := Unlock_ret_true h
  subst hl1
  simp [Unlock]

/-- C3: on the run `Add(e1)`, `Lock("key1")`, `Unlock(loan)`, `Unlock(loan)` the first
`Unlock` returns true and the second one panics instead of returning false. -/
theorem Unlock_twice_panics :
    Add CreateLockedMap (some e1) = .ret (mapAdded, true) ∧
    Lock mapAdded "key1" = .ret (mapLocked, some loan1) ∧
    Unlock mapLocked loan1 = .ret (mapUnlocked, loanSpent, true) ∧
    Unlock mapUnlocked loanSpent = .fault := by
  decide

theorem WF_mapAdded : WF mapAdded := by
  intro k a h
  have hk : "key1" = k ∧ 0 = a := by
    by_cases hk : "key1" = k
    · simpa [mapAdded, mapGet, hk] using h
    · simp [mapAdded, mapGet, hk] at h
  obtain ⟨hk, ha⟩ := hk
  subst hk ha
  exact ⟨_, rfl, ⟨e1, rfl, rfl⟩, rfl, by decide⟩

theorem WF_mapLocked : WF mapLocked := by
  intro k a h
  have hk : "key1" = k ∧ 0 = a := by
    by_cases hk : "key1" = k
    · simpa [mapLocked, mapGet, hk] using h
    · simp [mapLocked, mapGet, hk] at h
  obtain ⟨hk, ha⟩ := hk
  subst hk ha
  exact ⟨_, rfl, ⟨e1, rfl, rfl⟩, rfl, by decide⟩

/-- C2: in a well-formed map, `Unlock` of a loan whose element is not nil returns, and
it returns true exactly when the map has a slot under `loan.element.Key()`, the slot is
held, and the slot's `lockedTransactionId` is the loan's `transactionId`. -/
theorem Unlock_true_iff (m : LockedMap) (loan : ElementLoan) (e : Element)
    (hwf : WF m) (he : loan.element = some e) :
    ∃ m1 loan1 b, Unlock m loan = .ret (m1, loan1, b) ∧
      (b = true ↔ ∃ eh, slot m e.key = some eh ∧ eh.locked = true ∧
        eh.lockedTransactionId = loan.transactionId) := by
  cases ha : mapGet m.m e.key with
  | none =>
    refine ⟨m, loan, false, by simp [Unlock, he, ha], ?_⟩
    simp [slot, ha]
  | some a =>
    obtain ⟨eh, hh, hok⟩ := hwf _ _ ha
    rw [slot_eq ha, hh]
    cases hl : eh.locked with
    | false =>
      refine ⟨m, loan, false, by simp [Unlock, he, ha, hh, hl], ?_⟩
      simp [hl]
    | true =>
      by_cases ht : eh.lockedTransactionId = loan.transactionId
      · exact ⟨_, _, true, Unlock_release he ha hh hl ht (hok.gate.1 hl) hok.isOpen,
          by simp [hl, ht]⟩
      · refine ⟨m, loan, false, by simp [Unlock, he, ha, hh, hl, ht], ?_⟩
        simp [ht]

theorem Unlock_true_iff_witness :
    ∃ m1 loan2 b, Unlock mapLocked loan1 = .ret (m1, loan2, b) ∧
      (b = true ↔ ∃ eh, slot mapLocked e1.key = some eh ∧ eh.locked = true ∧
        eh.lockedTransactionId = loan1.transactionId) :=
  Unlock_true_iff mapLocked loan1 e1 WF_mapLocked rfl

/-! ## Acquire -/

/-- C6: when key `k` has a slot whose gate holds a token `t`, `Lock(k)` returns a loan
whose element is the slot's stored element and whose token is `t+1` in Go's `int`
(the wrapped sum, which is `t + 1` unless `t` is the largest `int`); afterwards the slot
is held, its token is the loan's token, and its gate is empty. -/
theorem Lock_acquire_post (m : LockedMap) (k : String) (eh : ElementHolder) (t : Int)
    (hs : slot m k = some eh) (ht : eh.lockQueue.buf = some t) :
    ∃ m1 loan eh1, Lock m k = .ret (m1, some loan) ∧
      loan.element = eh.element ∧
      loan.transactionId = wrapInt (t + 1) ∧
      (-(2 : Int) ^ 63 ≤ t → t < maxInt → loan.transactionId = t + 1) ∧
      slot m1 k = some eh1 ∧ eh1.element = eh.element ∧ eh1.locked = true ∧
      eh1.lockedTransactionId = loan.transactionId ∧ eh1.lockQueue.buf = none := by
  obtain ⟨a, ha, hh⟩ := slot_some hs
  have hlt := getElem?_lt hh
  refine ⟨_, _, { element := eh.element, lockedTransactionId := wrapInt (t + 1),
                  locked := true,
                  lockQueue := { buf := none, closed := eh.lockQueue.closed } },
    Lock_acquire ha hh ht, rfl, rfl, fun hlo hhi => wrapInt_succ hlo hhi, ?_, rfl, rfl, rfl, rfl⟩
  rw [slot_eq (by exact ha)]
  simp [List.getElem?_set, hlt]

theorem Lock_acquire_post_witness :
    ∃ m1 loan eh1, Lock mapAdded "key1" = .ret (m1, some loan) ∧
      loan.element = some e1 ∧
      loan.transactionId = wrapInt (1 + 1) ∧
      (-(2 : Int) ^ 63 ≤ 1 → 1 < maxInt → loan.transactionId = 1 + 1) ∧
      slot m1 "key1" = some eh1 ∧ eh1.element = some e1 ∧ eh1.locked = true ∧
      eh1.lockedTransactionId = loan.transactionId ∧ eh1.lockQueue.buf = none :=
  Lock_acquire_post mapAdded "key1"
    { element := some e1, lockedTransactionId := 0, locked := false,
      lockQueue := { buf := some 1, closed := false } } 1 (by decide) rfl

/-- C7: `Lock` of a key that is not in the map returns nil and leaves the map as it
is; it returns (it does not wait) whatever the holders and their gates are. -/
theorem Lock_missing (m : LockedMap) (k : String) (h : mapGet m.m k = none) :
    Lock m k = .ret (m, none) ∧
    ∀ heap1 : List ElementHolder,
      Lock { m := m.m, heap := heap1 } k = .ret ({ m := m.m, heap := heap1 }, none) := by
  constructor
  · simp [Lock, h]
  · intro heap1
    simp [Lock, h]

theorem Lock_missing_witness :
    Lock mapLocked "key2" = .ret (mapLocked, none) ∧
    ∀ heap1 : List ElementHolder,
      Lock { m := mapLocked.m, heap := heap1 } "key2" =
        .ret ({ m := mapLocked.m, heap := heap1 }, none) :=
  Lock_missing mapLocked "key2" (by decide)

/-! ## Add -/

/-- C8: `Add` of an element whose key is in the map already returns false and leaves
the map as it is, so the key still has its slot, with the same element, held flag,
token and gate. -/
theorem Add_duplicate (m : LockedMap) (v : Element) (h : (mapGet m.m v.key).isSome = true) :
    Add m (some v) = .ret (m, false) := by
  cases ha : mapGet m.m v.key with
  | none => simp [ha] at h
  | some a => exact Add_present ha

theorem Add_duplicate_witness : Add mapLocked (some e1) = .ret (mapLocked, false) :=
  Add_duplicate mapLocked e1 (by decide)

/-- C9: `Add` of an element whose key is not in the map returns true; afterwards the key
maps to a holder at an address the heap did not have before, which stores the element,
is not held, has token 0, and whose open gate holds exactly one token. -/
theorem Add_new (m : LockedMap) (v : Element) (h : mapGet m.m v.key = none) :
    ∃ m1, Add m (some v) = .ret (m1, true) ∧
      mapGet m1.m v.key = some m.heap.length ∧ m.heap[m.heap.length]? = none ∧
      slot m1 v.key = some
        { element := some v, lockedTransactionId := 0, locked := false,
          lockQueue := { buf := some 1, closed := false } } := by
  refine ⟨_, Add_absent h, mapGet_mapSet_self _ _ _, by simp, ?_⟩
  rw [slot_eq (mapGet_mapSet_self _ _ _)]
  simp

theorem Add_new_witness :
    ∃ m1, Add CreateLockedMap (some e1) = .ret (m1, true) ∧
      mapGet m1.m e1.key = some CreateLockedMap.heap.length ∧
      CreateLockedMap.heap[CreateLockedMap.heap.length]? = none ∧
      slot m1 e1.key = some
        { element := some e1, lockedTransactionId := 0, locked := false,
          lockQueue := { buf := some 1, closed := false } } :=
  Add_new CreateLockedMap e1 (by decide)

/-! ## Round trip -/

/-- C10: in a well-formed map where key `k` is present and not held, `Lock(k)` returns
a loan, `Unlock` of that loan returns true, and the next `Lock(k)` returns a loan whose
element is the stored element the first loan referred to. -/
theorem Lock_Unlock_Lock (m : LockedMap) (k : String) (eh : ElementHolder)
    (hwf : WF m) (hs : slot m k = some eh) (hfree : eh.locked = false) :
    ∃ m1 l1 m2 l1s m3 l2 e, Lock m k = .ret (m1, some l1) ∧
      Unlock m1 l1 = .ret (m2, l1s, true) ∧
      Lock m2 k = .ret (m3, some l2) ∧
      eh.element = some e ∧ l1.Element = some e ∧ l2.Element = some e := by
  obtain ⟨a, ha, hh⟩ := slot_some hs
  obtain ⟨eh0, hh0, hok⟩ := hwf _ _ ha
  rw [hh] at hh0
  cases hh0
  obtain ⟨e, he, hek⟩ := hok.keyed
  cases ht : eh.lockQueue.buf with
  | none => rw [hok.gate.2 ht] at hfree; exact absurd hfree (by simp)
  | some t =>
    obtain ⟨m1, l1, eh1, hL1, hl1, hs1, heh1⟩ := Lock_slot_spec hs ht
    have hl1e : l1.element = some e := by rw [hl1]; exact he
    have hs1k : slot m1 e.key = some eh1 := by rw [hek]; exact hs1
    obtain ⟨m2, eh2, hU, hs2, heh2⟩ := Unlock_slot_spec hl1e hs1k (by rw [heh1])
      (by rw [heh1, hl1]) (by rw [heh1]) (by rw [heh1]; exact hok.isOpen)
    rw [hek] at hs2
    obtain ⟨m3, l2, _, hL2, hl2, _, _⟩ :=
      Lock_slot_spec (t := eh1.lockedTransactionId) hs2 (by rw [heh2])
    refine ⟨m1, l1, m2, _, m3, l2, e, hL1, hU, hL2, he, hl1e, ?_⟩
    rw [hl2, heh2, heh1]
    exact he

theorem Lock_Unlock_Lock_witness :
    ∃ m1 l1 m2 l1s m3 l2 e, Lock mapAdded "key1" = .ret (m1, some l1) ∧
      Unlock m1 l1 = .ret (m2, l1s, true) ∧
      Lock m2 "key1" = .ret (m3, some l2) ∧
      some e1 = some e ∧ l1.Element = some e ∧ l2.Element = some e :=
  Lock_Unlock_Lock mapAdded "key1"
    { element := some e1, lockedTransactionId := 0, locked := false,
      lockQueue := { buf := some 1, closed := false } } WF_mapAdded (by decide) rfl

/-! ## Mutual exclusion -/

theorem unlockable_element {m : LockedMap} {loan : ElementLoan}
    (h : unlockable m loan = true) : ∃ e, loan.element = some e := by
  cases he : loan.element with
  | none => simp [unlockable, Unlock, he] at h
  | some e => exact ⟨e, rfl⟩

/-- C1: in every state a client reaches from `CreateLockedMap()` by `Add`, `Lock`,
`Unlock` and `Delete` calls, where `Unlock` is given loans that `Lock` returned, there
is for every key at most one issued loan for which `Unlock` would return true. -/
theorem mutual_exclusion (s : Sys) (h : Reachable s) (k : String) (i j : Nat)
    (li lj : ElementLoan) (hi : s.loans[i]? = some li) (hj : s.loans[j]? = some lj)
    (hki : li.key? = some k) (hkj : lj.key? = some k)
    (hui : unlockable s.map li = true) (huj : unlockable s.map lj = true) : i = j := by
  have hl := Reachable_LoansOK h
  obtain ⟨ei, hei⟩ := unlockable_element hui
  obtain ⟨ej, hej⟩ := unlockable_element huj
  simp only [ElementLoan.key?, hei, Option.map_some', Option.some.injEq] at hki
  simp only [ElementLoan.key?, hej, Option.map_some', Option.some.injEq] at hkj
  exact (hl i li ei hi hei).2 j lj ej hj hej (hkj.trans hki.symm)

theorem Reachable_sysLocked : Reachable sysLocked :=
  Reachable_run [.add (some e1), .lock "key1"] Reachable.init (by decide)

theorem mutual_exclusion_witness :
    Reachable sysLocked ∧ sysLocked.loans[0]? = some loan1 ∧ loan1.key? = some "key1" ∧
    unlockable sysLocked.map loan1 = true ∧ (0 : Nat) = 0 :=
  ⟨Reachable_sysLocked, by decide, by decide, by decide,
    mutual_exclusion sysLocked Reachable_sysLocked "key1" 0 0 loan1 loan1 (by decide)
      (by decide) (by decide) (by decide) (by decide) (by decide)⟩

/-! ## Delete -/

/-- C11: in a well-formed map where key `k` is present and its slot is not held,
`Delete(k)` returns true; afterwards `k` is not in the map, the holder that was removed
(still on the heap at its address) has a closed gate, and `Lock(k)` returns nil. -/
theorem Delete_present_free (m : LockedMap) (k : String) (eh : ElementHolder)
    (hwf : WF m) (hs : slot m k = some eh) (hfree : eh.locked = false) :
    ∃ m1 a eh1, Delete m k = .ret (m1, true) ∧
      mapGet m.m k = some a ∧ mapGet m1.m k = none ∧ slot m1 k = none ∧
      m1.heap[a]? = some eh1 ∧ eh1.lockQueue.closed = true ∧
      Lock m1 k = .ret (m1, none) := by
  obtain ⟨a, ha, hh⟩ := slot_some hs
  obtain ⟨eh0, hh0, hok⟩ := hwf _ _ ha
  rw [hh] at hh0
  cases hh0
  obtain ⟨e, he, hek⟩ := hok.keyed
  cases ht : eh.lockQueue.buf with
  | none => rw [hok.gate.2 ht] at hfree; exact absurd hfree (by simp)
  | some t =>
    have hD := Delete_free ha hh ht he hok.isOpen
    rw [hek] at hD
    have hg : mapGet (mapDelete m.m k) k = none := mapGet_mapDelete_self _ _
    refine ⟨_, a, _, hD, ha, hg, ?_, getElem?_set_same _ (getElem?_lt hh), rfl, ?_⟩
    · simp [slot, hg]
    · simp [Lock, hg]

theorem Delete_present_free_witness :
    ∃ m1 a eh1, Delete mapAdded "key1" = .ret (m1, true) ∧
      mapGet mapAdded.m "key1" = some a ∧ mapGet m1.m "key1" = none ∧
      slot m1 "key1" = none ∧
      m1.heap[a]? = some eh1 ∧ eh1.lockQueue.closed = true ∧
      Lock m1 "key1" = .ret (m1, none) :=
  Delete_present_free mapAdded "key1"
    { element := some e1, lockedTransactionId := 0, locked := false,
      lockQueue := { buf := some 1, closed := false } } WF_mapAdded (by decide) rfl

/-- C12: `Delete` of a key that is not in the map returns false and leaves the map as
it is. -/
theorem Delete_missing (m : LockedMap) (k : String) (h : mapGet m.m k = none) :
    Delete m k = .ret (m, false) := by
  simp [Delete, Lock, h]

theorem Delete_missing_witness : Delete mapLocked "key2" = .ret (mapLocked, false) :=
  Delete_missing mapLocked "key2" (by decide)

/-! ## A release that fails -/

/-- C15, as stated, fails: `Unlock` of `loan1` on a map where `key1` is not held
returns false, and the loan still hands out its element. -/
theorem Unlock_false_keeps_element :
    ∃ m1 l1, Unlock mapAdded loan1 = .ret (m1, l1, false) ∧
      loan1.Element ≠ none ∧ l1.Element ≠ none :=
  ⟨mapAdded, loan1, by decide, by decide, by decide⟩

/-- C15, amended: when `Unlock(loan)` returns false the loan is what it was before the
call, so `loan.Element()` still returns its (non-nil) element; only an `Unlock` that
returns true clears it. -/
theorem Unlock_false_loan_unchanged (m m1 : LockedMap) (loan loan1 : ElementLoan)
    (h : Unlock m loan = .ret (m1, loan1, false)) :
    loan1 = loan ∧ loan1.Element = loan.Element ∧ loan1.Element ≠ none := by
  obtain ⟨_, hl⟩ := Unlock_ret_false h
  subst hl
  refine ⟨rfl, rfl, ?_⟩
  intro hnil
  have hnil1 : loan1.element = none := hnil
  simp [Unlock, hnil1] at h

theorem Unlock_false_loan_unchanged_witness :
    Unlock mapAdded loan1 = .ret (mapAdded, loan1, false) ∧
    (loan1 = loan1 ∧ loan1.Element = loan1.Element ∧ loan1.Element ≠ none) :=
  ⟨by decide, Unlock_false_loan_unchanged mapAdded mapAdded loan1 loan1 (by decide)⟩

/-! ## The deposit of `Unlock` -/

/-- When every holder in the map has an open gate, and an empty one if it is held, the
send of a held slot's token goes through, and `Unlock` of a loan whose element is not
nil returns. -/
theorem deposit_goes_through {m : LockedMap}
    (hinv : ∀ k a, mapGet m.m k = some a → ∃ h, m.heap[a]? = some h ∧
      h.lockQueue.closed = false ∧ (h.locked = true → h.lockQueue.buf = none)) :
    (∀ k eh, slot m k = some eh → eh.locked = true →
      eh.lockQueue.send eh.lockedTransactionId =
        .ok { buf := some eh.lockedTransactionId, closed := false }) ∧
    (∀ (loan : ElementLoan) (e : Element), loan.element = some e →
      ∃ m1 loan1 b, Unlock m loan = .ret (m1, loan1, b)) := by
  constructor
  · intro k eh hs hl
    obtain ⟨a, ha, hh⟩ := slot_some hs
    obtain ⟨eh0, hh0, hc, hg⟩ := hinv _ _ ha
    rw [hh] at hh0
    cases hh0
    simp [Chan.send, hc, hg hl]
  · intro loan e he
    cases ha : mapGet m.m e.key with
    | none => exact ⟨m, loan, false, by simp [Unlock, he, ha]⟩
    | some a =>
      obtain ⟨eh, hh, hc, hg⟩ := hinv _ _ ha
      cases hl : eh.locked with
      | false => exact ⟨m, loan, false, by simp [Unlock, he, ha, hh, hl]⟩
      | true =>
        by_cases ht : eh.lockedTransactionId = loan.transactionId
        · exact ⟨_, _, _, Unlock_release he ha hh hl ht (hg hl) hc⟩
        · exact ⟨m, loan, false, by simp [Unlock, he, ha, hh, hl, ht]⟩

/-- C14, as stated, fails: after `Add(e1)`, `Lock("key1")` and `Unlock` of the loan, a
reachable state, `Unlock` of the one issued loan does not end with a boolean, it
panics. -/
theorem Unlock_not_always_boolean :
    Reachable sysUnlocked ∧ sysUnlocked.loans[0]? = some loanSpent ∧
    Unlock sysUnlocked.map loanSpent = .fault :=
  ⟨Reachable_run [.add (some e1), .lock "key1", .unlock 0] Reachable.init (by decide),
    by decide, by decide⟩

/-! ## Frame -/

/-- C20: in a well-formed map, `Add(v)`, `Lock(k)`, `Unlock(loan)` and `Delete(k)` leave
every key other than the one they concern as it was: the same address under the key (or
none), and behind it the same holder, with its element, held flag, token and gate. -/
theorem calls_frame (m : LockedMap) (hwf : WF m) (k1 : String) :
    (∀ (v : Element) (m1 : LockedMap) (b : Bool), Add m (some v) = .ret (m1, b) →
      k1 ≠ v.key → mapGet m1.m k1 = mapGet m.m k1 ∧ slot m1 k1 = slot m k1) ∧
    (∀ (k : String) (m1 : LockedMap) (r : Option ElementLoan), Lock m k = .ret (m1, r) →
      k1 ≠ k → mapGet m1.m k1 = mapGet m.m k1 ∧ slot m1 k1 = slot m k1) ∧
    (∀ (loan loan1 : ElementLoan) (e : Element) (m1 : LockedMap) (b : Bool),
      loan.element = some e → Unlock m loan = .ret (m1, loan1, b) →
      k1 ≠ e.key → mapGet m1.m k1 = mapGet m.m k1 ∧ slot m1 k1 = slot m k1) ∧
    (∀ (k : String) (m1 : LockedMap) (b : Bool), Delete m k = .ret (m1, b) →
      k1 ≠ k → mapGet m1.m k1 = mapGet m.m k1 ∧ slot m1 k1 = slot m k1) := by
  refine ⟨?_, ?_, ?_, ?_⟩
  · intro v m1 b h hne
    obtain ⟨e, hv, h1 | h1⟩ := Add_ret h
    · obtain ⟨_, _, hm, _⟩ := h1
      subst hm
      exact ⟨rfl, rfl⟩
    · obtain ⟨_, _, hm⟩ := h1
      cases hv
      subst hm
      exact ⟨mapGet_mapSet_ne _ _ hne, slot_Add_ne hwf v _ hne⟩
  · intro k m1 r h hne
    cases r with
    | none =>
      rw [Lock_ret_none h]
      exact ⟨rfl, rfl⟩
    | some loan =>
      obtain ⟨a, eh, t, ha, _, _, hm, _⟩ := Lock_ret_some h
      subst hm
      exact ⟨rfl, slot_set_ne hwf _ ha hne⟩
  · intro loan loan1 e m1 b he h hne
    cases b with
    | false =>
      rw [(Unlock_ret_false h).1]
      exact ⟨rfl, rfl⟩
    | true =>
      obtain ⟨e0, a, eh, he0, ha, _, _, _, _, _, hm, _⟩ := Unlock_ret_true h
      rw [he] at he0
      cases he0
      subst hm
      exact ⟨rfl, slot_set_ne hwf _ ha hne⟩
  · intro k m1 b h hne
    rcases Delete_ret h with ⟨_, hm⟩ | ⟨_, a, eh, t, e, ha, hh, _, he, _, hm⟩
    · subst hm
      exact ⟨rfl, rfl⟩
    · obtain ⟨eh0, hh0, hok⟩ := hwf _ _ ha
      rw [hh] at hh0
      cases hh0
      obtain ⟨e0, he0, hek⟩ := hok.keyed
      rw [he] at he0
      cases he0
      subst hm
      rw [hek]
      exact ⟨mapGet_mapDelete_ne _ hne, slot_Delete_ne hwf _ ha hne⟩

theorem calls_frame_witness :
    (∀ (v : Element) (m1 : LockedMap) (b : Bool), Add mapLocked (some v) = .ret (m1, b) →
      "key1" ≠ v.key →
      mapGet m1.m "key1" = mapGet mapLocked.m "key1" ∧ slot m1 "key1" = slot mapLocked "key1") ∧
    (∀ (k : String) (m1 : LockedMap) (r : Option ElementLoan),
      Lock mapLocked k = .ret (m1, r) → "key1" ≠ k →
      mapGet m1.m "key1" = mapGet mapLocked.m "key1" ∧ slot m1 "key1" = slot mapLocked "key1") ∧
    (∀ (loan loan1 : ElementLoan) (e : Element) (m1 : LockedMap) (b : Bool),
      loan.element = some e → Unlock mapLocked loan = .ret (m1, loan1, b) →
      "key1" ≠ e.key →
      mapGet m1.m "key1" = mapGet mapLocked.m "key1" ∧ slot m1 "key1" = slot mapLocked "key1") ∧
    (∀ (k : String) (m1 : LockedMap) (b : Bool), Delete mapLocked k = .ret (m1, b) →
      "key1" ≠ k →
      mapGet m1.m "key1" = mapGet mapLocked.m "key1" ∧ slot m1 "key1" = slot mapLocked "key1") :=
  calls_frame mapLocked WF_mapLocked "key1"

/-! ## Sections -/

theorem Lock_eq_sections (m : LockedMap) (key : String) :
    Lock m key =
      match lockLookup m key with
      | none => .ret (m, none)
      | some a => lockWait m a := by
  cases ha : mapGet m.m key with
  | none => simp [Lock, lockLookup, ha]
  | some a =>
    cases hh : m.heap[a]? with
    | none => simp [Lock, lockLookup, lockWait, lockRecv, ha, hh]
    | some eh =>
      have hlt := getElem?_lt hh
      cases hb : eh.lockQueue.buf with
      | none =>
        cases hc : eh.lockQueue.closed <;>
          simp [Lock, lockLookup, lockWait, lockRecv, lockFinish, ha, hh, Chan.recv, hb, hc]
      | some t =>
        simp [Lock, lockLookup, lockWait, lockRecv, lockFinish, ha, hh, Chan.recv, hb,
          List.getElem?_set, hlt]

theorem Delete_eq_sections (m : LockedMap) (key : String) :
    Delete m key =
      match Lock m key with
      | .block => .block
      | .fault => .fault
      | .ret (m1, r) => deleteFinish m1 key r := by
  cases hl : Lock m key with
  | block => simp [Delete, hl]
  | fault => simp [Delete, hl]
  | ret x =>
    obtain ⟨m1, r⟩ := x
    cases r with
    | none => simp [Delete, hl, deleteFinish]
    | some loan => simp [Delete, hl, deleteFinish]

theorem lockRecv_closed {m : LockedMap} {a : Nat} {eh : ElementHolder}
    (hh : m.heap[a]? = some eh) (hb : eh.lockQueue.buf = none)
    (hc : eh.lockQueue.closed = true) : lockRecv m a = .ret (m, none) := by
  simp [lockRecv, hh, Chan.recv, hb, hc]

theorem lockRecv_empty {m : LockedMap} {a : Nat} {eh : ElementHolder}
    (hh : m.heap[a]? = some eh) (hb : eh.lockQueue.buf = none)
    (hc : eh.lockQueue.closed = false) : lockRecv m a = .block := by
  simp [lockRecv, hh, Chan.recv, hb, hc]

theorem lockRecv_ret_none {m m1 : LockedMap} {a : Nat} (h : lockRecv m a = .ret (m1, none)) :
    m1 = m ∧ ∃ eh, m.heap[a]? = some eh ∧ eh.lockQueue.buf = none ∧
      eh.lockQueue.closed = true := by
  cases hh : m.heap[a]? with
  | none => simp [lockRecv, hh] at h
  | some eh =>
    cases hb : eh.lockQueue.buf with
    | some t => simp [lockRecv, hh, Chan.recv, hb] at h
    | none =>
      cases hc : eh.lockQueue.closed with
      | false => simp [lockRecv, hh, Chan.recv, hb, hc] at h
      | true =>
        simp [lockRecv, hh, Chan.recv, hb, hc] at h
        exact ⟨h.symm, eh, rfl, hb, hc⟩

theorem lockFinish_ret_none {m m1 : LockedMap} {a : Nat} {r : Option Int}
    (h : lockFinish m a r = .ret (m1, none)) : r = none ∧ m1 = m := by
  cases r with
  | none =>
    simp [lockFinish] at h
    exact ⟨rfl, h.symm⟩
  | some t =>
    cases hh : m.heap[a]? <;> simp [lockFinish, hh] at h

theorem deleteFinish_ret_false {m m1 : LockedMap} {key : String} {r : Option ElementLoan}
    (h : deleteFinish m key r = .ret (m1, false)) : r = none ∧ m1 = m := by
  cases r with
  | none =>
    simp [deleteFinish] at h
    exact ⟨rfl, h.symm⟩
  | some loan =>
    unfold deleteFinish at h
    simp only at h
    split at h
    · simp at h
    · split at h
      · simp at h
      · split at h
        · simp at h
        · split at h <;> simp at h

theorem lockWaitAll_closed {m : LockedMap} {a : Nat} {eh : ElementHolder}
    (hh : m.heap[a]? = some eh) (hb : eh.lockQueue.buf = none)
    (hc : eh.lockQueue.closed = true) (n : Nat) :
    lockWaitAll m a n = .ret (m, List.replicate n none) := by
  induction n with
  | zero => rfl
  | succ n ih =>
    simp [lockWaitAll, lockWait, lockRecv_closed hh hb hc, lockFinish, ih, List.replicate_succ]

theorem lockRecv_token {m : LockedMap} {a : Nat} {eh : ElementHolder} {t : Int}
    (hh : m.heap[a]? = some eh) (hb : eh.lockQueue.buf = some t) :
    ∃ m1 eh1, lockRecv m a = .ret (m1, some t) ∧ m1.m = m.m ∧ m1.heap[a]? = some eh1 ∧
      eh1 = { element := eh.element, lockedTransactionId := eh.lockedTransactionId,
              locked := eh.locked,
              lockQueue := { buf := none, closed := eh.lockQueue.closed } } := by
  have hx := getElem?_set_same
    ({ element := eh.element, lockedTransactionId := eh.lockedTransactionId,
       locked := eh.locked,
       lockQueue := { buf := none, closed := eh.lockQueue.closed } } : ElementHolder)
    (getElem?_lt hh)
  refine ⟨{ m := m.m, heap := m.heap.set a _ }, _, ?_, rfl, hx, rfl⟩
  simp only [lockRecv, hh, Chan.recv, hb]

theorem lockFinish_token {m : LockedMap} {a : Nat} {eh : ElementHolder} (t : Int)
    (hh : m.heap[a]? = some eh) :
    ∃ m1 eh1, lockFinish m a (some t) =
        .ret (m1, some { element := eh.element, transactionId := wrapInt (t + 1) }) ∧
      m1.m = m.m ∧ m1.heap[a]? = some eh1 ∧
      eh1 = { element := eh.element, lockedTransactionId := wrapInt (t + 1), locked := true,
              lockQueue := eh.lockQueue } := by
  have hx := getElem?_set_same
    ({ element := eh.element, lockedTransactionId := wrapInt (t + 1), locked := true,
       lockQueue := eh.lockQueue } : ElementHolder)
    (getElem?_lt hh)
  refine ⟨{ m := m.m, heap := m.heap.set a _ }, _, ?_, rfl, hx, rfl⟩
  simp only [lockFinish, hh]

theorem deleteFinish_remove {m : LockedMap} {k : String} {a : Nat} {eh : ElementHolder}
    {e : Element} (loan : ElementLoan) (ha : mapGet m.m k = some a)
    (hh : m.heap[a]? = some eh) (he : eh.element = some e)
    (hc : eh.lockQueue.closed = false) :
    ∃ m1 eh1, deleteFinish m k (some loan) = .ret (m1, true) ∧
      m1.m = mapDelete m.m e.key ∧ m1.heap[a]? = some eh1 ∧
      eh1 = { element := eh.element, lockedTransactionId := eh.lockedTransactionId,
              locked := eh.locked,
              lockQueue := { buf := eh.lockQueue.buf, closed := true } } := by
  have hx := getElem?_set_same
    ({ element := eh.element, lockedTransactionId := eh.lockedTransactionId,
       locked := eh.locked,
       lockQueue := { buf := eh.lockQueue.buf, closed := true } } : ElementHolder)
    (getElem?_lt hh)
  refine ⟨{ m := mapDelete m.m e.key, heap := m.heap.set a _ }, _, ?_, rfl, hx, rfl⟩
  simp only [deleteFinish, ha, hh, he, Chan.close, hc]
  rfl

/-! ## Callers that wait while the key is deleted -/

/-- C13: after `Delete(k)` has returned true, the holder that the waiting `Lock` calls
looked up (at address `a`) has a closed, empty gate; the receive of each waiting call
yields the closed outcome and its `Lock` returns nil, leaving the map and the holder
(held flag, token) as they are; so do `n` waiting calls one after the other, for every
`n`. -/
theorem waiters_return_nil (m m1 : LockedMap) (k : String) (a : Nat)
    (ha : lockLookup m k = some a) (hd : Delete m k = .ret (m1, true)) :
    ∃ eh1, m1.heap[a]? = some eh1 ∧ eh1.lockQueue.closed = true ∧
      eh1.lockQueue.buf = none ∧
      lockRecv m1 a = .ret (m1, none) ∧ lockFinish m1 a none = .ret (m1, none) ∧
      ∀ n, lockWaitAll m1 a n = .ret (m1, List.replicate n none) := by
  rcases Delete_ret hd with ⟨hb, _⟩ | ⟨_, a1, eh, t, e, ha1, hh, _, _, _, hm⟩
  · exact absurd hb (by simp)
  · have ha2 : mapGet m.m k = some a := ha
    rw [ha1] at ha2
    cases ha2
    have hh1 : m1.heap[a]? = some
        { element := eh.element, lockedTransactionId := wrapInt (t + 1), locked := true,
          lockQueue := { buf := none, closed := true } } := by
      rw [hm]
      exact getElem?_set_same _ (getElem?_lt hh)
    exact ⟨_, hh1, rfl, rfl, lockRecv_closed hh1 rfl rfl, rfl,
      lockWaitAll_closed hh1 rfl rfl⟩

theorem waiters_return_nil_witness :
    ∃ eh1, mapDeleted.heap[0]? = some eh1 ∧ eh1.lockQueue.closed = true ∧
      eh1.lockQueue.buf = none ∧
      lockRecv mapDeleted 0 = .ret (mapDeleted, none) ∧
      lockFinish mapDeleted 0 none = .ret (mapDeleted, none) ∧
      ∀ n, lockWaitAll mapDeleted 0 n = .ret (mapDeleted, List.replicate n none) :=
  waiters_return_nil mapAdded mapDeleted "key1" 0 (by decide) (by decide)

/-- C16: A holds the loan on key `k`. The receives of B's `Delete(k)` and of C's
`Lock(k)` wait. When A's `Unlock` has returned true, B's receive (the first in the queue)
gets the token, B's `Lock` returns a loan and B's `Delete` returns true; C's receive
waits until then and afterwards yields the closed outcome, so C's `Lock` returns nil. -/
theorem Delete_under_contention (m : LockedMap) (k : String) (a : Nat) (eh : ElementHolder)
    (loanA : ElementLoan) (hwf : WF m) (ha : lockLookup m k = some a)
    (hh : m.heap[a]? = some eh) (hl : eh.locked = true)
    (hAe : loanA.element = eh.element)
    (hAt : eh.lockedTransactionId = loanA.transactionId) :
    lockRecv m a = .block ∧
    ∃ m1 loanA1 m2 t m3 loanB m4,
      Unlock m loanA = .ret (m1, loanA1, true) ∧
      lockRecv m1 a = .ret (m2, some t) ∧
      lockRecv m2 a = .block ∧
      lockFinish m2 a (some t) = .ret (m3, some loanB) ∧
      lockRecv m3 a = .block ∧
      deleteFinish m3 k (some loanB) = .ret (m4, true) ∧
      lockLookup m4 k = none ∧
      lockRecv m4 a = .ret (m4, none) ∧
      lockFinish m4 a none = .ret (m4, none) := by
  have ha0 : mapGet m.m k = some a := ha
  obtain ⟨eh0, hh0, hok⟩ := hwf _ _ ha0
  rw [hh] at hh0
  cases hh0
  obtain ⟨e, he, hek⟩ := hok.keyed
  have hq := hok.gate.1 hl
  have hc := hok.isOpen
  refine ⟨lockRecv_empty hh hq hc, ?_⟩
  have hU := Unlock_release (hAe.trans he) (by rw [hek]; exact ha0) hh hl hAt hq hc
  have hh1 := getElem?_set_same
    ({ element := eh.element, lockedTransactionId := eh.lockedTransactionId, locked := false,
       lockQueue := { buf := some eh.lockedTransactionId, closed := false } } : ElementHolder)
    (getElem?_lt hh)
  obtain ⟨m2, eh2, hR, hm2, hh2, heh2⟩ :=
    lockRecv_token (m := { m := m.m, heap := m.heap.set a _ }) hh1 rfl
  obtain ⟨m3, eh3, hF, hm3, hh3, heh3⟩ := lockFinish_token eh.lockedTransactionId hh2
  have ha3 : mapGet m3.m k = some a := by rw [hm3, hm2]; exact ha0
  obtain ⟨m4, eh4, hD, hm4, hh4, heh4⟩ :=
    deleteFinish_remove { element := eh2.element,
                          transactionId := wrapInt (eh.lockedTransactionId + 1) }
      ha3 hh3 (by rw [heh3, heh2]; exact he) (by rw [heh3, heh2])
  refine ⟨_, _, m2, _, m3, _, m4, hU, hR, ?_, hF, ?_, hD, ?_, ?_, rfl⟩
  · exact lockRecv_empty hh2 (by rw [heh2]) (by rw [heh2])
  · exact lockRecv_empty hh3 (by rw [heh3, heh2]) (by rw [heh3, heh2])
  · show mapGet m4.m k = none
    rw [hm4, hm3, hm2, hek]
    exact mapGet_mapDelete_self _ _
  · exact lockRecv_closed hh4 (by rw [heh4, heh3, heh2]) (by rw [heh4])

theorem Delete_under_contention_witness :
    lockRecv mapLocked 0 = .block ∧
    ∃ m1 loanA1 m2 t m3 loanB m4,
      Unlock mapLocked loan1 = .ret (m1, loanA1, true) ∧
      lockRecv m1 0 = .ret (m2, some t) ∧
      lockRecv m2 0 = .block ∧
      lockFinish m2 0 (some t) = .ret (m3, some loanB) ∧
      lockRecv m3 0 = .block ∧
      deleteFinish m3 "key1" (some loanB) = .ret (m4, true) ∧
      lockLookup m4 "key1" = none ∧
      lockRecv m4 0 = .ret (m4, none) ∧
      lockFinish m4 0 none = .ret (m4, none) :=
  Delete_under_contention mapLocked "key1" 0
    { element := some e1, lockedTransactionId := 2, locked := true,
      lockQueue := { buf := none, closed := false } } loan1 WF_mapLocked (by decide) rfl rfl
    rfl rfl

/-! ## Two calls of `Delete` at once -/

/-- C18, as stated, fails: `key1` is in the map and a second `Delete("key1")` has looked
it up (address 0) when the first `Delete("key1")` runs and returns true; the receive of
the second call then finds the gate closed, its `Lock` returns nil, and it returns
false. -/
theorem Delete_loser_returns_false :
    lockLookup mapAdded "key1" = some 0 ∧
    Delete mapAdded "key1" = .ret (mapDeleted, true) ∧
    lockRecv mapDeleted 0 = .ret (mapDeleted, none) ∧
    lockFinish mapDeleted 0 none = .ret (mapDeleted, none) ∧
    deleteFinish mapDeleted "key1" none = .ret (mapDeleted, false) := by
  decide

/-- C18, amended: a `Delete(k)` call that found `k` in the map (the holder at address
`a`) returns false only if the holder's gate was closed and empty when the call's
receive was served; this holds whatever states `mr`, `mf`, `md` the calls of other
goroutines have led to before each of its sections. Then its `Lock` returned nil and the
call changed nothing. -/
theorem Delete_false_only_if (k : String) (a : Nat) (mr mr1 mf mf1 md md1 : LockedMap)
    (r : Option Int) (loan : Option ElementLoan)
    (hr : lockRecv mr a = .ret (mr1, r)) (hf : lockFinish mf a r = .ret (mf1, loan))
    (hd : deleteFinish md k loan = .ret (md1, false)) :
    (∃ eh, mr.heap[a]? = some eh ∧ eh.lockQueue.closed = true ∧ eh.lockQueue.buf = none) ∧
    loan = none ∧ mr1 = mr ∧ mf1 = mf ∧ md1 = md := by
  obtain ⟨hloan, hmd⟩ := deleteFinish_ret_false hd
  subst hloan
  obtain ⟨hr0, hmf⟩ := lockFinish_ret_none hf
  subst hr0
  obtain ⟨hmr, eh, hh, hb, hc⟩ := lockRecv_ret_none hr
  exact ⟨⟨eh, hh, hc, hb⟩, rfl, hmr, hmf, hmd⟩

theorem Delete_false_only_if_witness :
    (∃ eh, mapDeleted.heap[0]? = some eh ∧ eh.lockQueue.closed = true ∧
      eh.lockQueue.buf = none) ∧
    (none : Option ElementLoan) = none ∧ mapDeleted = mapDeleted ∧ mapDeleted = mapDeleted ∧
    mapDeleted = mapDeleted :=
  Delete_false_only_if "key1" 0 mapDeleted mapDeleted mapDeleted mapDeleted mapDeleted
    mapDeleted none none (by decide) (by decide) (by decide)

/-! ## Token monotonicity -/

theorem wrapInt_ge (x : Int) : -(2 : Int) ^ 63 ≤ wrapInt x := by
  simp only [wrapInt]
  omega

theorem noWrap_lt {m : LockedMap} (h : noWrap m = true) {a : Nat} {eh : ElementHolder}
    {t : Int} (hh : m.heap[a]? = some eh) (hb : eh.lockQueue.buf = some t) : t < maxInt := by
  have hmem : eh ∈ m.heap := List.getElem?_mem hh
  have hall := (List.all_eq_true.1 h) eh hmem
  simpa [hb] using hall

theorem step_TokInv {s s1 : Sys} {c : Call} (hwf : WF s.map) (hinv : TokInv s.map)
    (h : step s c = some s1) : TokInv s1.map := by
  rcases step_cases h with ⟨v, m1, b, _, ho, hs⟩ | ⟨k, m1, r, _, ho, hs⟩ |
    ⟨i, loan, m1, loan1, b, _, _, ho, hs⟩ | ⟨k, m1, b, _, ho, hs⟩
  · subst hs
    obtain ⟨e, _, h1 | h1⟩ := Add_ret ho
    · obtain ⟨_, _, hm, _⟩ := h1
      subst hm
      exact hinv
    · obtain ⟨hnone, _, hm⟩ := h1
      subst hm
      intro k0 eh0 hs0
      by_cases hk : k0 = e.key
      · subst hk
        rw [slot_eq (mapGet_mapSet_self _ _ _)] at hs0
        simp only [List.getElem?_concat_length, Option.some.injEq] at hs0
        subst hs0
        refine ⟨by norm_num, ?_⟩
        intro t ht
        simp only [Option.some.injEq] at ht
        subst ht
        norm_num
      · rw [slot_Add_ne hwf e _ hk] at hs0
        exact hinv k0 eh0 hs0
  · subst hs
    cases r with
    | none => rw [Lock_ret_none ho]; exact hinv
    | some loan =>
      obtain ⟨a, eh, t, ha, hh, _, hm, _⟩ := Lock_ret_some ho
      subst hm
      intro k0 eh0 hs0
      by_cases hk : k0 = k
      · subst hk
        rw [slot_eq (by exact ha)] at hs0
        rw [getElem?_set_same _ (getElem?_lt hh)] at hs0
        simp only [Option.some.injEq] at hs0
        subst hs0
        exact ⟨wrapInt_ge _, by intro t1 ht1; simp at ht1⟩
      · rw [slot_set_ne hwf _ ha hk] at hs0
        exact hinv k0 eh0 hs0
  · subst hs
    cases b with
    | false => rw [(Unlock_ret_false ho).1]; exact hinv
    | true =>
      obtain ⟨e, a, eh, _, ha, hh, _, _, _, _, hm, _⟩ := Unlock_ret_true ho
      subst hm
      intro k0 eh0 hs0
      by_cases hk : k0 = e.key
      · subst hk
        have hold := hinv e.key eh (by rw [slot_eq ha]; exact hh)
        rw [slot_eq (by exact ha)] at hs0
        rw [getElem?_set_same _ (getElem?_lt hh)] at hs0
        simp only [Option.some.injEq] at hs0
        subst hs0
        refine ⟨hold.1, ?_⟩
        intro t1 ht1
        simp only [Option.some.injEq] at ht1
        subst ht1
        exact le_refl _
      · rw [slot_set_ne hwf _ ha hk] at hs0
        exact hinv k0 eh0 hs0
  · subst hs
    rcases Delete_ret ho with ⟨_, hm⟩ | ⟨_, a, eh, t, e, ha, hh, _, he, _, hm⟩
    · subst hm
      exact hinv
    · obtain ⟨eh1, hh1, hok⟩ := hwf _ _ ha
      rw [hh] at hh1
      cases hh1
      obtain ⟨e0, he0, hek⟩ := hok.keyed
      rw [he] at he0
      cases he0
      subst hm
      intro k0 eh0 hs0
      by_cases hk : k0 = k
      · subst hk
        rw [hek] at hs0
        simp [slot, mapGet_mapDelete_self] at hs0
      · rw [hek, slot_Delete_ne hwf _ ha hk] at hs0
        exact hinv k0 eh0 hs0

theorem Reachable_TokInv {s : Sys} (h : Reachable s) : TokInv s.map := by
  induction h with
  | init =>
    intro k eh hs
    simp [slot, CreateLockedMap, mapGet] at hs
  | next c hr hstep ih => exact step_TokInv (Reachable_WF hr) ih hstep

theorem acquire_token_gt {m : LockedMap} {k : String} {a : Nat} {eh : ElementHolder}
    {t : Int} (hinv : TokInv m) (hn : noWrap m = true) (ha : mapGet m.m k = some a)
    (hh : m.heap[a]? = some eh) (ht : eh.lockQueue.buf = some t) :
    eh.lockedTransactionId < wrapInt (t + 1) := by
  obtain ⟨hlo, hle⟩ := hinv k eh (by rw [slot_eq ha]; exact hh)
  have h1 := hle t ht
  have h2 := noWrap_lt hn hh ht
  rw [wrapInt_succ (le_trans hlo h1) h2]
  omega

theorem step_token_mono {s s1 : Sys} {c : Call} (hinv : TokInv s.map)
    (hn : noWrap s.map = true) (h : step s c = some s1) {a : Nat} {eh : ElementHolder}
    (hh : s.map.heap[a]? = some eh) :
    ∃ eh1, s1.map.heap[a]? = some eh1 ∧
      eh.lockedTransactionId ≤ eh1.lockedTransactionId := by
  rcases step_cases h with ⟨v, m1, b, _, ho, hs⟩ | ⟨k, m1, r, _, ho, hs⟩ |
    ⟨i, loan, m1, loan1, b, _, _, ho, hs⟩ | ⟨k, m1, b, _, ho, hs⟩
  · subst hs
    obtain ⟨e, _, h1 | h1⟩ := Add_ret ho
    · obtain ⟨_, _, hm, _⟩ := h1
      subst hm
      exact ⟨eh, hh, le_refl _⟩
    · obtain ⟨_, _, hm⟩ := h1
      subst hm
      refine ⟨eh, ?_, le_refl _⟩
      show (s.map.heap ++ _)[a]? = some eh
      rw [List.getElem?_append_left (getElem?_lt hh)]
      exact hh
  · subst hs
    cases r with
    | none =>
      rw [Lock_ret_none ho]
      exact ⟨eh, hh, le_refl _⟩
    | some loan =>
      obtain ⟨a0, eh0, t, ha0, hh0, ht0, hm, _⟩ := Lock_ret_some ho
      subst hm
      by_cases haa : a0 = a
      · subst haa
        rw [hh] at hh0
        cases hh0
        exact ⟨_, getElem?_set_same _ (getElem?_lt hh),
          le_of_lt (acquire_token_gt hinv hn ha0 hh ht0)⟩
      · refine ⟨eh, ?_, le_refl _⟩
        show (s.map.heap.set a0 _)[a]? = some eh
        rw [List.getElem?_set_ne haa]
        exact hh
  · subst hs
    cases b with
    | false =>
      rw [(Unlock_ret_false ho).1]
      exact ⟨eh, hh, le_refl _⟩
    | true =>
      obtain ⟨e, a0, eh0, _, _, hh0, _, _, _, _, hm, _⟩ := Unlock_ret_true ho
      subst hm
      by_cases haa : a0 = a
      · subst haa
        rw [hh] at hh0
        cases hh0
        exact ⟨_, getElem?_set_same _ (getElem?_lt hh), le_refl _⟩
      · refine ⟨eh, ?_, le_refl _⟩
        show (s.map.heap.set a0 _)[a]? = some eh
        rw [List.getElem?_set_ne haa]
        exact hh
  · subst hs
    rcases Delete_ret ho with ⟨_, hm⟩ | ⟨_, a0, eh0, t, e, ha0, hh0, ht0, _, _, hm⟩
    · subst hm
      exact ⟨eh, hh, le_refl _⟩
    · subst hm
      by_cases haa : a0 = a
      · subst haa
        rw [hh] at hh0
        cases hh0
        exact ⟨_, getElem?_set_same _ (getElem?_lt hh),
          le_of_lt (acquire_token_gt hinv hn ha0 hh ht0)⟩
      · refine ⟨eh, ?_, le_refl _⟩
        show (s.map.heap.set a0 _)[a]? = some eh
        rw [List.getElem?_set_ne haa]
        exact hh

theorem StepsNoWrap_Reachable {s s1 : Sys} (hr : Reachable s) (h : StepsNoWrap s s1) :
    Reachable s1 := by
  induction h with
  | refl => exact hr
  | tail c _ _ hstep ih => exact Reachable.next c ih hstep

theorem steps_token_mono {s s1 : Sys} (hr : Reachable s) (h : StepsNoWrap s s1) {a : Nat}
    {eh : ElementHolder} (hh : s.map.heap[a]? = some eh) :
    ∃ eh1, s1.map.heap[a]? = some eh1 ∧
      eh.lockedTransactionId ≤ eh1.lockedTransactionId := by
  induction h with
  | refl => exact ⟨eh, hh, le_refl _⟩
  | tail c hsteps hn hstep ih =>
    obtain ⟨eh1, hh1, hle1⟩ := ih
    have hr1 := StepsNoWrap_Reachable hr hsteps
    obtain ⟨eh2, hh2, hle2⟩ :=
      step_token_mono (Reachable_TokInv hr1) hn hstep hh1
    exact ⟨eh2, hh2, le_trans hle1 hle2⟩

/-- C19: overflow aside (no gate holds the largest `int` when a call begins), a `Lock`
that returns a loan sets the slot's token above the token the slot had before, and any
later `Lock` of the same slot (the holder at the same address), after any calls in
between, returns a loan with a greater token still. -/
theorem token_monotone (s0 s2 : Sys) (k1 k2 : String) (a : Nat) (eh0 : ElementHolder)
    (m1 m3 : LockedMap) (l1 l2 : ElementLoan)
    (hr : Reachable s0) (hn0 : noWrap s0.map = true)
    (ha1 : mapGet s0.map.m k1 = some a) (hh0 : s0.map.heap[a]? = some eh0)
    (hL1 : Lock s0.map k1 = .ret (m1, some l1))
    (hsteps : StepsNoWrap { map := m1, loans := s0.loans ++ [l1] } s2)
    (hn2 : noWrap s2.map = true)
    (ha2 : mapGet s2.map.m k2 = some a)
    (hL2 : Lock s2.map k2 = .ret (m3, some l2)) :
    eh0.lockedTransactionId < l1.transactionId ∧
    (∃ eh1, m1.heap[a]? = some eh1 ∧ eh1.lockedTransactionId = l1.transactionId) ∧
    l1.transactionId < l2.transactionId := by
  have hr1 : Reachable { map := m1, loans := s0.loans ++ [l1] } :=
    Reachable.next (.lock k1) hr (by simp [step, hL1])
  have hr2 := StepsNoWrap_Reachable hr1 hsteps
  obtain ⟨a1, eh1, t1, hb1, hh1, ht1, hm1, hl1⟩ := Lock_ret_some hL1
  rw [ha1] at hb1
  cases hb1
  rw [hh0] at hh1
  cases hh1
  obtain ⟨a2, eh2, t2, hb2, hh2, ht2, _, hl2⟩ := Lock_ret_some hL2
  rw [ha2] at hb2
  cases hb2
  have hgt1 := acquire_token_gt (Reachable_TokInv hr) hn0 ha1 hh0 ht1
  have hgt2 := acquire_token_gt (Reachable_TokInv hr2) hn2 ha2 hh2 ht2
  have hset : m1.heap[a]? = some
      { element := eh0.element, lockedTransactionId := wrapInt (t1 + 1), locked := true,
        lockQueue := { buf := none, closed := eh0.lockQueue.closed } } := by
    rw [hm1]
    exact getElem?_set_same _ (getElem?_lt hh0)
  obtain ⟨eh3, hh3, hle⟩ := steps_token_mono hr1 hsteps hset
  rw [hh2] at hh3
  cases hh3
  subst hl1 hl2
  refine ⟨hgt1, ⟨_, hset, rfl⟩, ?_⟩
  exact lt_of_le_of_lt hle hgt2

theorem token_monotone_witness :
    (0 : Int) < loan1.transactionId ∧
    (∃ eh1, mapLocked.heap[0]? = some eh1 ∧ eh1.lockedTransactionId = loan1.transactionId) ∧
    loan1.transactionId < (3 : Int) :=
  token_monotone sysAdded sysUnlocked "key1" "key1" 0
    { element := some e1, lockedTransactionId := 0, locked := false,
      lockQueue := { buf := some 1, closed := false } }
    mapLocked
    { m := [("key1", 0)],
      heap := [{ element := some e1, lockedTransactionId := 3, locked := true,
                 lockQueue := { buf := none, closed := false } }] }
    loan1 { element := some e1, transactionId := 3 }
    (Reachable_run [.add (some e1)] Reachable.init (by decide)) (by decide) (by decide) rfl
    (by decide)
    (StepsNoWrap.tail (.unlock 0) (StepsNoWrap.refl _) (by decide) (by decide))
    (by decide) (by decide) (by decide)

/-! ## No lost updates -/

theorem mapOf_eq (e : Element) :
    mapOf e =
      { m := [(e.key, 0)],
        heap := [{ element := some e, lockedTransactionId := 0, locked := false,
                   lockQueue := { buf := some 1, closed := false } }] } := by
  simp [mapOf, Add, CreateLockedMap, mapGet, mapSet, mapDelete, Chan.send, Chan.make]

theorem countP_set {α : Type} (p : α → Bool) (l : List α) (i : Nat) (x y : α)
    (h : l[i]? = some x) :
    (l.set i y).countP p + (if p x then 1 else 0) =
      l.countP p + (if p y then 1 else 0) := by
  induction l generalizing i with
  | nil => simp at h
  | cons z r ih =>
    cases i with
    | zero =>
      simp only [List.getElem?_cons_zero, Option.some.injEq] at h
      subst h
      simp only [List.set_cons_zero, List.countP_cons]
      omega
    | succ i =>
      simp only [List.getElem?_cons_succ] at h
      have h1 := ih i h
      simp only [List.set_cons_succ, List.countP_cons]
      omega

theorem getElem?_set_cases {α : Type} {l : List α} {i j : Nat} {x y : α}
    (h : (l.set i x)[j]? = some y) : (j = i ∧ y = x) ∨ (j ≠ i ∧ l[j]? = some y) := by
  rw [List.getElem?_set] at h
  by_cases hij : i = j
  · rw [if_pos hij] at h
    split at h
    · cases h
      exact Or.inl ⟨hij.symm, rfl⟩
    · exact absurd h (by simp)
  · rw [if_neg hij] at h
    exact Or.inr ⟨fun h1 => hij h1.symm, h⟩

theorem WorkerOK_inactive {e : Element} {h h1 : ElementHolder} {c c1 : Int} {w : Worker}
    (ha : w.active = false) (hok : WorkerOK e h c w) : WorkerOK e h1 c1 w := by
  cases w <;> simp_all [WorkerOK, Worker.active]

theorem WorkerOK_gate {e : Element} {h h1 : ElementHolder} {c : Int} {w : Worker}
    (hl : h1.locked = h.locked) (ht : h1.lockedTransactionId = h.lockedTransactionId)
    (hok : WorkerOK e h c w) : WorkerOK e h1 c w := by
  cases w <;> simp_all [WorkerOK]

theorem RaceInv_update {e : Element} {n : Nat} {s : Race} {h h1 : ElementHolder} {i : Nat}
    {w w1 : Worker} {m1 : LockedMap} {c1 : Int}
    (hinv : RaceInv e n s h) (hw : s.workers[i]? = some w)
    (hm : m1.m = [(e.key, 0)]) (hheap : m1.heap = [h1]) (helem : h1.element = some e)
    (hopen : h1.lockQueue.closed = false)
    (hgate : h1.lockQueue.buf = none ↔
      (w1.active = true ∨
        ∃ (j : Nat) (wj : Worker), j ≠ i ∧ s.workers[j]? = some wj ∧ wj.active = true))
    (hok1 : WorkerOK e h1 c1 w1)
    (hoks : ∀ (j : Nat) (wj : Worker), j ≠ i → s.workers[j]? = some wj → WorkerOK e h1 c1 wj)
    (huniq : w1.active = true →
      ∀ (j : Nat) (wj : Worker), j ≠ i → s.workers[j]? = some wj → wj.active = false)
    (hcount : c1 + (if w.past then 1 else 0) = s.a + (if w1.past then 1 else 0)) :
    RaceInv e n { map := m1, a := c1, workers := s.workers.set i w1 } h1 := by
  have hlt : i < s.workers.length := getElem?_lt hw
  refine ⟨hm, hheap, helem, hopen, ?_, ?_, ?_, ?_, ?_⟩
  · rw [hgate]
    constructor
    · rintro (ha | ⟨j, wj, hji, hj, ha⟩)
      · exact ⟨i, w1, getElem?_set_same _ hlt, ha⟩
      · refine ⟨j, wj, ?_, ha⟩
        show (s.workers.set i w1)[j]? = some wj
        rw [List.getElem?_set_ne (fun h1 => hji h1.symm)]
        exact hj
    · rintro ⟨j, wj, hj, ha⟩
      rcases getElem?_set_cases hj with ⟨_, hwj⟩ | ⟨hji, hj1⟩
      · subst hwj
        exact Or.inl ha
      · exact Or.inr ⟨j, wj, hji, hj1, ha⟩
  · intro j wj hj
    rcases getElem?_set_cases hj with ⟨_, hwj⟩ | ⟨hji, hj1⟩
    · subst hwj
      exact hok1
    · exact hoks j wj hji hj1
  · show (s.workers.set i w1).length = n
    rw [List.length_set]
    exact hinv.len
  · intro j1 j2 wj1 wj2 hj1 hj2 ha1 ha2
    rcases getElem?_set_cases hj1 with ⟨hi1, hw1⟩ | ⟨hi1, hg1⟩
    · rcases getElem?_set_cases hj2 with ⟨hi2, _⟩ | ⟨hi2, hg2⟩
      · rw [hi1, hi2]
      · subst hw1
        have hf := huniq ha1 j2 wj2 hi2 hg2
        rw [hf] at ha2
        exact absurd ha2 (by simp)
    · rcases getElem?_set_cases hj2 with ⟨_, hw2⟩ | ⟨_, hg2⟩
      · subst hw2
        have hf := huniq ha2 j1 wj1 hi1 hg1
        rw [hf] at ha1
        exact absurd ha1 (by simp)
      · exact hinv.unique j1 j2 wj1 wj2 hg1 hg2 ha1 ha2
  · have hc := countP_set Worker.past s.workers i w w1 hw
    have hold := hinv.count
    show c1 = ((s.workers.set i w1).countP Worker.past : Int)
    have hc1 : (((s.workers.set i w1).countP Worker.past : Nat) : Int) +
        (if w.past then 1 else 0) =
        ((s.workers.countP Worker.past : Nat) : Int) + (if w1.past then 1 else 0) := by
      have hc2 := congrArg (fun x : Nat => (x : Int)) hc
      simp only [Nat.cast_add] at hc2
      split_ifs at hc2 ⊢ <;> simpa using hc2
    rw [hold] at hcount
    omega

theorem others_inactive {e : Element} {n : Nat} {s : Race} {h : ElementHolder} {i : Nat}
    {w : Worker} (hinv : RaceInv e n s h) (hw : s.workers[i]? = some w)
    (ha : w.active = true) (j : Nat) (wj : Worker) (hji : j ≠ i)
    (hj : s.workers[j]? = some wj) : wj.active = false := by
  cases hwj : wj.active with
  | false => rfl
  | true => exact absurd (hinv.unique j i wj w hj hw hwj ha) hji

theorem RaceInv_init (e : Element) (n : Nat) :
    RaceInv e n (raceInit e n)
      { element := some e, lockedTransactionId := 0, locked := false,
        lockQueue := { buf := some 1, closed := false } } := by
  have hget : ∀ (i : Nat) (w : Worker),
      (List.replicate n Worker.start)[i]? = some w → w = Worker.start := by
    intro i w hi
    exact List.eq_of_mem_replicate (List.getElem?_mem hi)
  refine ⟨?_, ?_, rfl, rfl, ?_, ?_, ?_, ?_, ?_⟩
  · simp [raceInit, mapOf_eq]
  · simp [raceInit, mapOf_eq]
  · constructor
    · intro hb
      simp at hb
    · rintro ⟨i, w, hi, ha⟩
      rw [hget i w hi] at ha
      simp [Worker.active] at ha
  · intro i w hi
    rw [hget i w hi]
    simp [WorkerOK]
  · simp [raceInit]
  · intro i j wi wj hi _ ha _
    rw [hget i wi hi] at ha
    simp [Worker.active] at ha
  · show (0 : Int) = ((List.replicate n Worker.start).countP Worker.past : Int)
    rw [List.countP_eq_zero.2]
    · rfl
    · intro w hw
      rw [List.eq_of_mem_replicate hw]
      simp [Worker.past]

theorem gate_of_inactive {ws : List Worker} {i : Nat} {w : Worker} (hw : ws[i]? = some w)
    (ha : w.active = false) :
    (∃ (j : Nat) (wj : Worker), ws[j]? = some wj ∧ wj.active = true) ↔
      ∃ (j : Nat) (wj : Worker), j ≠ i ∧ ws[j]? = some wj ∧ wj.active = true := by
  constructor
  · rintro ⟨j, wj, hj, haj⟩
    refine ⟨j, wj, ?_, hj, haj⟩
    intro hji
    subst hji
    rw [hw] at hj
    cases hj
    rw [ha] at haj
    exact absurd haj (by simp)
  · rintro ⟨j, wj, _, hj, haj⟩
    exact ⟨j, wj, hj, haj⟩

theorem raceStep_inv {e : Element} {n : Nat} {s s1 : Race} {h : ElementHolder} {i : Nat}
    (hn : (n : Int) ≤ maxInt) (hinv : RaceInv e n s h)
    (hstep : raceStep e.key s i = some s1) : ∃ h1, RaceInv e n s1 h1 := by
  cases hw : s.workers[i]? with
  | none => simp [raceStep, hw] at hstep
  | some w =>
    have hokw := hinv.ok i w hw
    have hm := hinv.mapm
    have hheap := hinv.heap
    have hh0 : s.map.heap[0]? = some h := by rw [hheap]; rfl
    have hlook : lockLookup s.map e.key = some 0 := by simp [lockLookup, hm, mapGet]
    have hrest : ∀ (ha : w.active = true), h.lockQueue.buf = none ∧
        ∀ (j : Nat) (wj : Worker), j ≠ i → s.workers[j]? = some wj → wj.active = false :=
      fun ha => ⟨hinv.gate.2 ⟨i, w, hw, ha⟩, others_inactive hinv hw ha⟩
    cases w with
    | start =>
      have hs1 : s1 = { map := s.map, a := s.a, workers := s.workers.set i (.waiting 0) } := by
        simp only [raceStep, hw, workerStep, hlook, Option.some.injEq] at hstep
        exact hstep.symm
      subst hs1
      refine ⟨h, RaceInv_update hinv hw hm hheap hinv.elem hinv.isOpen ?_
        (by simp [WorkerOK]) (fun j wj _ hj => hinv.ok j wj hj) (by simp [Worker.active])
        (by simp [Worker.past])⟩
      rw [hinv.gate, gate_of_inactive hw rfl]
      simp [Worker.active]
    | waiting a =>
      have ha0 : a = 0 := hokw
      subst ha0
      cases hb : h.lockQueue.buf with
      | none =>
        simp [raceStep, hw, workerStep, lockRecv_empty hh0 hb hinv.isOpen] at hstep
      | some t =>
        have hnone : ∀ (j : Nat) (wj : Worker), s.workers[j]? = some wj →
            wj.active = false := by
          intro j wj hj
          cases haj : wj.active with
          | false => rfl
          | true =>
            have hq := hinv.gate.2 ⟨j, wj, hj, haj⟩
            rw [hb] at hq
            exact absurd hq (by simp)
        have hs1 : s1 =
            { map := { m := s.map.m,
                       heap := [{ element := h.element,
                                  lockedTransactionId := h.lockedTransactionId,
                                  locked := h.locked,
                                  lockQueue := { buf := none,
                                                 closed := h.lockQueue.closed } }] },
              a := s.a, workers := s.workers.set i (.received 0 (some t)) } := by
          simp only [raceStep, hw, workerStep, lockRecv, hheap, List.getElem?_cons_zero,
            Chan.recv, hb, List.set_cons_zero, Option.some.injEq] at hstep
          exact hstep.symm
        subst hs1
        refine ⟨_, RaceInv_update hinv hw hm rfl hinv.elem hinv.isOpen ?_
          (by simp [WorkerOK]) ?_ (fun _ j wj _ hj => hnone j wj hj) (by simp [Worker.past])⟩
        · simp [Worker.active]
        · intro j wj _ hj
          exact WorkerOK_gate rfl rfl (hinv.ok j wj hj)
    | received a r =>
      obtain ⟨ha0, t, hr⟩ := hokw
      subst ha0 hr
      obtain ⟨hq, hoth⟩ := hrest rfl
      have hs1 : s1 =
          { map := { m := s.map.m,
                     heap := [{ element := h.element,
                                lockedTransactionId := wrapInt (t + 1),
                                locked := true,
                                lockQueue := h.lockQueue }] },
            a := s.a,
            workers := s.workers.set i
              (.holding { element := h.element, transactionId := wrapInt (t + 1) }) } := by
        simp only [raceStep, hw, workerStep, lockFinish, hheap, List.getElem?_cons_zero,
          List.set_cons_zero, Option.some.injEq] at hstep
        exact hstep.symm
      subst hs1
      refine ⟨_, RaceInv_update hinv hw hm rfl hinv.elem hinv.isOpen ?_
        ?_ ?_ (fun _ => hoth) (by simp [Worker.past])⟩
      · simp [Worker.active, hq]
      · exact ⟨hinv.elem, rfl, rfl⟩
      · intro j wj hji hj
        exact WorkerOK_inactive (hoth j wj hji hj) (hinv.ok j wj hj)
    | holding loan =>
      obtain ⟨hq, hoth⟩ := hrest rfl
      have hle : loan.Element = some e := hokw.1
      have hs1 : s1 = { map := s.map, a := s.a,
                        workers := s.workers.set i (.loaded loan s.a) } := by
        simp only [raceStep, hw, workerStep, hle, Option.some.injEq] at hstep
        exact hstep.symm
      subst hs1
      refine ⟨h, RaceInv_update hinv hw hm hheap hinv.elem hinv.isOpen ?_
        ⟨hokw, rfl⟩ (fun j wj _ hj => hinv.ok j wj hj) (fun _ => hoth)
        (by simp [Worker.past])⟩
      simp [Worker.active, hq]
    | loaded loan v =>
      obtain ⟨hq, hoth⟩ := hrest rfl
      obtain ⟨hokl, hv⟩ := hokw
      subst hv
      have hs1 : s1 = { map := s.map, a := wrapInt (s.a + 1),
                        workers := s.workers.set i (.stored loan) } := by
        simp only [raceStep, hw, workerStep, Option.some.injEq] at hstep
        exact hstep.symm
      subst hs1
      have hc := countP_set Worker.past s.workers i (.loaded loan s.a) (.stored loan) hw
      have hle : (s.workers.set i (.stored loan)).countP Worker.past ≤ n := by
        have h1 := List.countP_le_length Worker.past (l := s.workers.set i (.stored loan))
        rw [List.length_set, hinv.len] at h1
        exact h1
      have hcnt := hinv.count
      simp only [Worker.past, if_true, Bool.false_eq_true, if_false, add_zero] at hc
      have hbound : s.a + 1 ≤ (n : Int) := by
        rw [hcnt]
        have h2 : s.workers.countP Worker.past + 1 ≤ n := by omega
        exact_mod_cast h2
      have hpos : (0 : Int) ≤ s.a := by
        rw [hcnt]
        exact Int.natCast_nonneg _
      have hwrap : wrapInt (s.a + 1) = s.a + 1 :=
        wrapInt_succ (by norm_num; omega) (by omega)
      refine ⟨h, RaceInv_update hinv hw hm hheap hinv.elem hinv.isOpen ?_
        hokl ?_ (fun _ => hoth) ?_⟩
      · simp [Worker.active, hq]
      · intro j wj hji hj
        exact WorkerOK_inactive (hoth j wj hji hj) (hinv.ok j wj hj)
      · simp [Worker.past, hwrap]
    | stored loan =>
      obtain ⟨hq, hoth⟩ := hrest rfl
      obtain ⟨hle, hl, ht⟩ := hokw
      have hU := Unlock_release hle (by rw [hm]; simp [mapGet]) hh0 hl ht hq hinv.isOpen
      have hs1 : s1 =
          { map := { m := s.map.m,
                     heap := [{ element := h.element,
                                lockedTransactionId := h.lockedTransactionId,
                                locked := false,
                                lockQueue := { buf := some h.lockedTransactionId,
                                               closed := false } }] },
            a := s.a, workers := s.workers.set i .done } := by
        simp only [raceStep, hw, workerStep, hU, hheap, List.set_cons_zero,
          Option.some.injEq] at hstep
        exact hstep.symm
      subst hs1
      refine ⟨_, RaceInv_update hinv hw hm rfl hinv.elem rfl ?_
        (by simp [WorkerOK]) ?_ (by simp [Worker.active]) (by simp [Worker.past])⟩
      · constructor
        · intro hx
          simp at hx
        · rintro (ha | ⟨j, wj, hji, hj, haj⟩)
          · simp [Worker.active] at ha
          · rw [hoth j wj hji hj] at haj
            exact absurd haj (by simp)
      · intro j wj hji hj
        exact WorkerOK_inactive (hoth j wj hji hj) (hinv.ok j wj hj)
    | done => simp [raceStep, hw, workerStep] at hstep
    | failed => simp [raceStep, hw, workerStep] at hstep

theorem RaceReachable_inv {e : Element} {n : Nat} {s : Race} (hn : (n : Int) ≤ maxInt)
    (h : RaceReachable e n s) : ∃ h1, RaceInv e n s h1 := by
  induction h with
  | init => exact ⟨_, RaceInv_init e n⟩
  | next i _ hstep ih =>
    obtain ⟨h1, hinv⟩ := ih
    exact raceStep_inv hn hinv hstep

theorem RaceReachable_run {e : Element} {n : Nat} {s s1 : Race} (is : List Nat)
    (h : RaceReachable e n s) (hr : raceRun e.key s is = some s1) : RaceReachable e n s1 := by
  induction is generalizing s with
  | nil =>
    simp only [raceRun, Option.some.injEq] at hr
    rw [← hr]
    exact h
  | cons i is ih =>
    cases hs : raceStep e.key s i with
    | none => simp [raceRun, hs] at hr
    | some s2 =>
      simp only [raceRun, hs] at hr
      exact ih (RaceReachable.next i h hs) hr

theorem race_progress {e : Element} {n : Nat} {s : Race} {h : ElementHolder}
    (hinv : RaceInv e n s h)
    (hnd : ∃ (i : Nat) (w : Worker), s.workers[i]? = some w ∧ w ≠ .done) :
    ∃ i s1, raceStep e.key s i = some s1 := by
  have hm := hinv.mapm
  have hheap := hinv.heap
  have hh0 : s.map.heap[0]? = some h := by rw [hheap]; rfl
  have hlook : lockLookup s.map e.key = some 0 := by simp [lockLookup, hm, mapGet]
  have hsome : ∀ i, (raceStep e.key s i).isSome = true → ∃ i s1, raceStep e.key s i = some s1 :=
    fun i hi => ⟨i, Option.isSome_iff_exists.1 hi⟩
  by_cases hact : ∃ (j : Nat) (wj : Worker), s.workers[j]? = some wj ∧ wj.active = true
  · obtain ⟨j, wj, hj, haj⟩ := hact
    have hq := hinv.gate.2 ⟨j, wj, hj, haj⟩
    have hokj := hinv.ok j wj hj
    apply hsome j
    cases wj with
    | received a r =>
      obtain ⟨ha0, t, hr⟩ := hokj
      subst ha0 hr
      simp [raceStep, hj, workerStep, lockFinish, hheap]
    | holding loan =>
      have hle : loan.Element = some e := hokj.1
      simp [raceStep, hj, workerStep, hle]
    | loaded loan v => simp [raceStep, hj, workerStep]
    | stored loan =>
      obtain ⟨hle, hl, ht⟩ := hokj
      have hU := Unlock_release hle (by rw [hm]; simp [mapGet]) hh0 hl ht hq hinv.isOpen
      simp [raceStep, hj, workerStep, hU]
    | start => simp [Worker.active] at haj
    | waiting a => simp [Worker.active] at haj
    | done => simp [Worker.active] at haj
    | failed => simp [Worker.active] at haj
  · obtain ⟨i, w, hw, hne⟩ := hnd
    have hoki := hinv.ok i w hw
    have hna : w.active = false := by
      cases hwa : w.active with
      | false => rfl
      | true => exact absurd ⟨i, w, hw, hwa⟩ hact
    apply hsome i
    cases w with
    | start => simp [raceStep, hw, workerStep, hlook]
    | waiting a =>
      have ha0 : a = 0 := hoki
      subst ha0
      cases hb : h.lockQueue.buf with
      | none => exact absurd (hinv.gate.1 hb) hact
      | some t => simp [raceStep, hw, workerStep, lockRecv, hheap, Chan.recv, hb]
    | received a r => simp [Worker.active] at hna
    | holding loan => simp [Worker.active] at hna
    | loaded loan v => simp [Worker.active] at hna
    | stored loan => simp [Worker.active] at hna
    | done => exact absurd rfl hne
    | failed => exact absurd hoki (by simp [WorkerOK])

theorem sum_map_set {α : Type} (f : α → Nat) (l : List α) (i : Nat) (x y : α)
    (h : l[i]? = some x) :
    ((l.set i y).map f).sum + f x = (l.map f).sum + f y := by
  induction l generalizing i with
  | nil => simp at h
  | cons z r ih =>
    cases i with
    | zero =>
      simp only [List.getElem?_cons_zero, Option.some.injEq] at h
      subst h
      simp only [List.set_cons_zero, List.map_cons, List.sum_cons]
      omega
    | succ i =>
      simp only [List.getElem?_cons_succ] at h
      have h1 := ih i h
      simp only [List.set_cons_succ, List.map_cons, List.sum_cons]
      omega

theorem workerStep_fuel {key : String} {m m1 : LockedMap} {c c1 : Int} {w w1 : Worker}
    (h : workerStep key m c w = some (m1, c1, w1)) : w1.fuel < w.fuel := by
  cases w with
  | start =>
    simp only [workerStep] at h
    split at h <;> simp at h <;> (obtain ⟨_, _, hw⟩ := h; subst hw; simp [Worker.fuel])
  | waiting a =>
    simp only [workerStep] at h
    split at h <;> simp at h <;> (obtain ⟨_, _, hw⟩ := h; subst hw; simp [Worker.fuel])
  | received a r =>
    simp only [workerStep] at h
    split at h <;> simp at h <;> (obtain ⟨_, _, hw⟩ := h; subst hw; simp [Worker.fuel])
  | holding loan =>
    simp only [workerStep] at h
    split at h <;> simp at h <;> (obtain ⟨_, _, hw⟩ := h; subst hw; simp [Worker.fuel])
  | loaded loan v =>
    simp only [workerStep, Option.some.injEq, Prod.mk.injEq] at h
    obtain ⟨_, _, hw⟩ := h
    subst hw
    simp [Worker.fuel]
  | stored loan =>
    simp only [workerStep] at h
    split at h <;> simp at h <;> (obtain ⟨_, _, hw⟩ := h; subst hw; simp [Worker.fuel])
  | done => simp [workerStep] at h
  | failed => simp [workerStep] at h

theorem raceStep_fuel {key : String} {s s1 : Race} {i : Nat}
    (h : raceStep key s i = some s1) : raceFuel s1 < raceFuel s := by
  cases hw : s.workers[i]? with
  | none => simp [raceStep, hw] at h
  | some w =>
    cases hs : workerStep key s.map s.a w with
    | none => simp [raceStep, hw, hs] at h
    | some x =>
      obtain ⟨m1, c1, w1⟩ := x
      simp only [raceStep, hw, hs, Option.some.injEq] at h
      subst h
      have hf := workerStep_fuel hs
      have hsum := sum_map_set Worker.fuel s.workers i w w1 hw
      simp only [raceFuel]
      omega

/-- C17: for every number `n` of workers (at most the largest `int`) and every state the
workers reach in any interleaving of their sections: no worker has failed (every `Lock`
returned a loan with the element, every `Unlock` returned true); while a worker has not
ended, some worker can run its next section; every section run brings the end nearer;
and when all workers have ended, the field `a` is exactly `n` and the next `Lock` of the
key returns the element. -/
theorem no_lost_updates (e : Element) (n : Nat) (s : Race) (hn : (n : Int) ≤ maxInt)
    (h : RaceReachable e n s) :
    (∀ (i : Nat) (w : Worker), s.workers[i]? = some w → w ≠ .failed) ∧
    s.workers.length = n ∧
    ((∃ (i : Nat) (w : Worker), s.workers[i]? = some w ∧ w ≠ .done) →
      ∃ i s1, raceStep e.key s i = some s1) ∧
    (∀ (i : Nat) (s1 : Race), raceStep e.key s i = some s1 → raceFuel s1 < raceFuel s) ∧
    ((∀ (i : Nat) (w : Worker), s.workers[i]? = some w → w = .done) →
      s.a = n ∧ ∃ m1 loan, Lock s.map e.key = .ret (m1, some loan) ∧
        loan.Element = some e) := by
  obtain ⟨h1, hinv⟩ := RaceReachable_inv hn h
  refine ⟨?_, hinv.len, race_progress hinv, fun i s1 hs => raceStep_fuel hs, ?_⟩
  · intro i w hw hf
    subst hf
    exact absurd (hinv.ok i _ hw) (by simp [WorkerOK])
  · intro hall
    constructor
    · rw [hinv.count, ← hinv.len]
      have hcp : s.workers.countP Worker.past = s.workers.length := by
        rw [List.countP_eq_length]
        intro w hmem
        obtain ⟨i, hi⟩ := List.mem_iff_getElem?.1 hmem
        rw [hall i w hi]
        rfl
      rw [hcp]
    · have hb : h1.lockQueue.buf ≠ none := by
        intro hq
        obtain ⟨j, wj, hj, haj⟩ := hinv.gate.1 hq
        rw [hall j wj hj] at haj
        simp [Worker.active] at haj
      cases hbt : h1.lockQueue.buf with
      | none => exact absurd hbt hb
      | some t =>
        have hh0 : s.map.heap[0]? = some h1 := by rw [hinv.heap]; rfl
        have ha0 : mapGet s.map.m e.key = some 0 := by rw [hinv.mapm]; simp [mapGet]
        exact ⟨_, _, Lock_acquire ha0 hh0 hbt, hinv.elem⟩

theorem no_lost_updates_witness :
    (∀ (i : Nat) (w : Worker), raceDone2.workers[i]? = some w → w ≠ .failed) ∧
    raceDone2.workers.length = 2 ∧
    ((∃ (i : Nat) (w : Worker), raceDone2.workers[i]? = some w ∧ w ≠ .done) →
      ∃ i s1, raceStep e1.key raceDone2 i = some s1) ∧
    (∀ (i : Nat) (s1 : Race),
      raceStep e1.key raceDone2 i = some s1 → raceFuel s1 < raceFuel raceDone2) ∧
    ((∀ (i : Nat) (w : Worker), raceDone2.workers[i]? = some w → w = .done) →
      raceDone2.a = (2 : Nat) ∧ ∃ m1 loan, Lock raceDone2.map e1.key = .ret (m1, some loan) ∧
        loan.Element = some e1) :=
  no_lost_updates e1 2 raceDone2 (by decide)
    (RaceReachable_run [0, 1, 0, 0, 0, 0, 0, 1, 1, 1, 1, 1] RaceReachable.init (by decide))

/-! ## Sections in any interleaving -/

theorem lockRecv_ret_some {m m1 : LockedMap} {a : Nat} {t : Int}
    (h : lockRecv m a = .ret (m1, some t)) :
    ∃ hh, m.heap[a]? = some hh ∧ hh.lockQueue.buf = some t ∧
      m1 = { m := m.m,
             heap := m.heap.set a
                       { element := hh.element, lockedTransactionId := hh.lockedTransactionId,
                         locked := hh.locked,
                         lockQueue := { buf := none, closed := hh.lockQueue.closed } } } := by
  cases hh : m.heap[a]? with
  | none => simp [lockRecv, hh] at h
  | some eh =>
    cases hb : eh.lockQueue.buf with
    | none => cases hc : eh.lockQueue.closed <;> simp [lockRecv, hh, Chan.recv, hb, hc] at h
    | some t1 =>
      simp only [lockRecv, hh, Chan.recv, hb, Outcome.ret.injEq, Prod.mk.injEq,
        Option.some.injEq] at h
      obtain ⟨hm, ht⟩ := h
      subst ht
      exact ⟨eh, rfl, hb, hm.symm⟩

theorem lockFinish_ret_token {m m1 : LockedMap} {a : Nat} {t : Int}
    {res : Option ElementLoan} (h : lockFinish m a (some t) = .ret (m1, res)) :
    ∃ hh, m.heap[a]? = some hh ∧
      m1 = { m := m.m,
             heap := m.heap.set a
                       { element := hh.element, lockedTransactionId := wrapInt (t + 1),
                         locked := true, lockQueue := hh.lockQueue } } ∧
      res = some { element := hh.element, transactionId := wrapInt (t + 1) } := by
  cases hh : m.heap[a]? with
  | none => simp [lockFinish, hh] at h
  | some eh =>
    simp only [lockFinish, hh, Outcome.ret.injEq, Prod.mk.injEq] at h
    exact ⟨eh, rfl, h.1.symm, h.2.symm⟩

theorem deleteFinish_ret_loan {m m1 : LockedMap} {key : String} {loan : ElementLoan}
    {b : Bool} (h : deleteFinish m key (some loan) = .ret (m1, b)) :
    ∃ a hh e, mapGet m.m key = some a ∧ m.heap[a]? = some hh ∧ hh.element = some e ∧
      hh.lockQueue.closed = false ∧
      m1 = { m := mapDelete m.m e.key,
             heap := m.heap.set a
                       { element := hh.element, lockedTransactionId := hh.lockedTransactionId,
                         locked := hh.locked,
                         lockQueue := { buf := hh.lockQueue.buf, closed := true } } } := by
  cases ha : mapGet m.m key with
  | none => simp [deleteFinish, ha] at h
  | some a =>
    cases hh : m.heap[a]? with
    | none => simp [deleteFinish, ha, hh] at h
    | some eh =>
      cases he : eh.element with
      | none => simp [deleteFinish, ha, hh, he] at h
      | some e =>
        cases hc : eh.lockQueue.closed with
        | true => simp [deleteFinish, ha, hh, he, Chan.close, hc] at h
        | false =>
          simp [deleteFinish, ha, hh, he, Chan.close, hc] at h
          refine ⟨a, eh, e, rfl, hh, he, hc, ?_⟩
          rw [← h.1, he]

theorem afterLock_carries (d : Option String) (res : Option ElementLoan) (a : Nat) :
    (afterLock d res).carries a = false := by
  cases d <;> cases res <;> rfl

theorem SecSlotOK_set {calls : List Pending} {k : String} {a : Nat} {h : ElementHolder}
    (hok : SecSlotOK calls k a h) (i : Nat) {p : Pending} (hp : p.carries a = false) :
    SecSlotOK (calls.set i p) k a h := by
  refine ⟨hok.keyed, hok.isOpen, hok.gate, ?_, ?_⟩
  · intro hq j pj hj
    rcases getElem?_set_cases hj with ⟨_, hpj⟩ | ⟨_, hj1⟩
    · rw [hpj]
      exact hp
    · exact hok.quiet hq j pj hj1
  · intro j1 j2 p1 p2 hj1 hj2 hc1 hc2
    rcases getElem?_set_cases hj1 with ⟨_, hp1⟩ | ⟨_, hg1⟩
    · rw [hp1, hp] at hc1
      exact absurd hc1 (by simp)
    · rcases getElem?_set_cases hj2 with ⟨_, hp2⟩ | ⟨_, hg2⟩
      · rw [hp2, hp] at hc2
        exact absurd hc2 (by simp)
      · exact hok.one j1 j2 p1 p2 hg1 hg2 hc1 hc2

theorem SecSlotOK_append {calls : List Pending} {k : String} {a : Nat} {h : ElementHolder}
    (hok : SecSlotOK calls k a h) {p : Pending} (hp : p.carries a = false) :
    SecSlotOK (calls ++ [p]) k a h := by
  refine ⟨hok.keyed, hok.isOpen, hok.gate, ?_, ?_⟩
  · intro hq j pj hj
    rcases getElem?_concat_cases hj with hj1 | ⟨_, hpj⟩
    · exact hok.quiet hq j pj hj1
    · rw [hpj]
      exact hp
  · intro j1 j2 p1 p2 hj1 hj2 hc1 hc2
    rcases getElem?_concat_cases hj1 with hg1 | ⟨_, hp1⟩
    · rcases getElem?_concat_cases hj2 with hg2 | ⟨_, hp2⟩
      · exact hok.one j1 j2 p1 p2 hg1 hg2 hc1 hc2
      · rw [hp2, hp] at hc2
        exact absurd hc2 (by simp)
    · rw [hp1, hp] at hc1
      exact absurd hc1 (by simp)

theorem carried_set {calls : List Pending} {n : Nat} (i : Nat) {p : Pending}
    (hv : ∀ (j : Nat) (q : Pending) (a : Nat), calls[j]? = some q → q.carries a = true →
      a < n)
    (hp : ∀ a, p.carries a = true → a < n) :
    ∀ (j : Nat) (q : Pending) (a : Nat), (calls.set i p)[j]? = some q →
      q.carries a = true → a < n := by
  intro j q a hj hc
  rcases getElem?_set_cases hj with ⟨_, hq⟩ | ⟨_, hj1⟩
  · rw [hq] at hc
    exact hp a hc
  · exact hv j q a hj1 hc

theorem secStep_cases {c c1 : Conc} {x : Section} (h : secStep c x = some c1) :
    (∃ v m1 b, Add c.map v = .ret (m1, b) ∧ c1 = { map := m1, calls := c.calls }) ∨
    (∃ loan m1 loan1 b, Unlock c.map loan = .ret (m1, loan1, b) ∧
      c1 = { map := m1, calls := c.calls }) ∨
    c1 = c ∨
    (∃ a d, c1 = { map := c.map, calls := c.calls ++ [.waits a d] }) ∨
    (∃ i a d m1 r, c.calls[i]? = some (.waits a d) ∧ lockRecv c.map a = .ret (m1, r) ∧
      c1 = { map := m1, calls := c.calls.set i (.got a r d) }) ∨
    (∃ i a r d m1 res, c.calls[i]? = some (.got a r d) ∧
      lockFinish c.map a r = .ret (m1, res) ∧
      c1 = { map := m1, calls := c.calls.set i (afterLock d res) }) ∨
    (∃ i key loan m1 b, c.calls[i]? = some (.owns key loan) ∧
      deleteFinish c.map key (some loan) = .ret (m1, b) ∧
      c1 = { map := m1, calls := c.calls.set i .ended }) := by
  cases x with
  | add v =>
    cases ho : Add c.map v with
    | ret r =>
      obtain ⟨m1, b⟩ := r
      simp only [secStep, ho, Option.some.injEq] at h
      exact Or.inl ⟨v, m1, b, ho, h.symm⟩
    | block => simp [secStep, ho] at h
    | fault => simp [secStep, ho] at h
  | unlock loan =>
    cases ho : Unlock c.map loan with
    | ret r =>
      obtain ⟨m1, loan1, b⟩ := r
      simp only [secStep, ho, Option.some.injEq] at h
      exact Or.inr (Or.inl ⟨loan, m1, loan1, b, ho, h.symm⟩)
    | block => simp [secStep, ho] at h
    | fault => simp [secStep, ho] at h
  | lookup key del =>
    cases ho : lockLookup c.map key with
    | none =>
      simp only [secStep, ho, Option.some.injEq] at h
      exact Or.inr (Or.inr (Or.inl h.symm))
    | some a =>
      simp only [secStep, ho, Option.some.injEq] at h
      exact Or.inr (Or.inr (Or.inr (Or.inl ⟨a, _, h.symm⟩)))
  | recv i =>
    cases hi : c.calls[i]? with
    | none => simp [secStep, hi] at h
    | some p =>
      cases p with
      | waits a d =>
        cases ho : lockRecv c.map a with
        | ret r =>
          obtain ⟨m1, r1⟩ := r
          simp only [secStep, hi, ho, Option.some.injEq] at h
          exact Or.inr (Or.inr (Or.inr (Or.inr (Or.inl ⟨i, a, d, m1, r1, hi, ho, h.symm⟩))))
        | block => simp [secStep, hi, ho] at h
        | fault => simp [secStep, hi, ho] at h
      | got a r d => simp [secStep, hi] at h
      | owns key loan => simp [secStep, hi] at h
      | ended => simp [secStep, hi] at h
  | finish i =>
    cases hi : c.calls[i]? with
    | none => simp [secStep, hi] at h
    | some p =>
      cases p with
      | got a r d =>
        cases ho : lockFinish c.map a r with
        | ret x =>
          obtain ⟨m1, res⟩ := x
          simp only [secStep, hi, ho, Option.some.injEq] at h
          exact Or.inr (Or.inr (Or.inr (Or.inr (Or.inr (Or.inl
            ⟨i, a, r, d, m1, res, hi, ho, h.symm⟩)))))
        | block => simp [secStep, hi, ho] at h
        | fault => simp [secStep, hi, ho] at h
      | waits a d => simp [secStep, hi] at h
      | owns key loan => simp [secStep, hi] at h
      | ended => simp [secStep, hi] at h
  | remove i =>
    cases hi : c.calls[i]? with
    | none => simp [secStep, hi] at h
    | some p =>
      cases p with
      | owns key loan =>
        cases ho : deleteFinish c.map key (some loan) with
        | ret x =>
          obtain ⟨m1, b⟩ := x
          simp only [secStep, hi, ho, Option.some.injEq] at h
          exact Or.inr (Or.inr (Or.inr (Or.inr (Or.inr (Or.inr
            ⟨i, key, loan, m1, b, hi, ho, h.symm⟩)))))
        | block => simp [secStep, hi, ho] at h
        | fault => simp [secStep, hi, ho] at h
      | waits a d => simp [secStep, hi] at h
      | got a r d => simp [secStep, hi] at h
      | ended => simp [secStep, hi] at h

theorem secStep_inv {c c1 : Conc} {x : Section} (hinv : SecInv c)
    (h : secStep c x = some c1) : SecInv c1 := by
  obtain ⟨hmap, hval⟩ := hinv
  rcases secStep_cases h with ⟨v, m1, b, ho, hc1⟩ | ⟨loan, m1, loan1, b, ho, hc1⟩ | hc1 |
    ⟨a, d, hc1⟩ | ⟨i, a, d, m1, r, hi, ho, hc1⟩ | ⟨i, a, r, d, m1, res, hi, ho, hc1⟩ |
    ⟨i, key, loan, m1, b, hi, ho, hc1⟩
  · -- Add
    subst hc1
    obtain ⟨e, _, h1 | h1⟩ := Add_ret ho
    · obtain ⟨_, _, hm, _⟩ := h1
      subst hm
      exact ⟨hmap, hval⟩
    · obtain ⟨_, _, hm⟩ := h1
      subst hm
      constructor
      · intro k1 a1 hk1
        by_cases hk : k1 = e.key
        · subst hk
          have hk2 : mapGet (mapSet c.map.m e.key c.map.heap.length) e.key = some a1 := hk1
          rw [mapGet_mapSet_self] at hk2
          cases hk2
          have hnone : ∀ (j : Nat) (q : Pending), c.calls[j]? = some q →
              q.carries c.map.heap.length = false := by
            intro j q hj
            cases hq : q.carries c.map.heap.length with
            | false => rfl
            | true => exact absurd (hval j q _ hj hq) (lt_irrefl _)
          refine ⟨_, List.getElem?_concat_length _ _, ⟨e, rfl, rfl⟩, rfl, ?_, ?_, ?_⟩
          · intro hl
            simp at hl
          · intro _ j q hj
            exact hnone j q hj
          · intro j1 j2 q1 q2 hj1 _ hq1 _
            rw [hnone j1 q1 hj1] at hq1
            exact absurd hq1 (by simp)
        · have hk2 : mapGet (mapSet c.map.m e.key c.map.heap.length) k1 = some a1 := hk1
          rw [mapGet_mapSet_ne _ _ hk] at hk2
          obtain ⟨hh, hheap, hok⟩ := hmap _ _ hk2
          refine ⟨hh, ?_, hok⟩
          show (c.map.heap ++ _)[a1]? = some hh
          rw [List.getElem?_append_left (getElem?_lt hheap)]
          exact hheap
      · intro j q a hj hq
        have hlt := hval j q a hj hq
        show a < (c.map.heap ++ _).length
        rw [List.length_append]
        omega
  · -- Unlock
    subst hc1
    cases b with
    | false =>
      rw [(Unlock_ret_false ho).1]
      exact ⟨hmap, hval⟩
    | true =>
      obtain ⟨e, a0, eh, _, _, hh0, hl, _, _, _, hm, _⟩ := Unlock_ret_true ho
      subst hm
      constructor
      · intro k1 a1 hk1
        obtain ⟨hh, hheap, hok⟩ := hmap _ _ hk1
        by_cases haa : a0 = a1
        · subst haa
          rw [hh0] at hheap
          cases hheap
          refine ⟨_, getElem?_set_same _ (getElem?_lt hh0), hok.keyed, rfl, ?_, ?_, hok.one⟩
          · intro hl1
            simp at hl1
          · intro _
            exact hok.quiet (Or.inl hl)
        · refine ⟨hh, ?_, hok⟩
          show (c.map.heap.set a0 _)[a1]? = some hh
          rw [List.getElem?_set_ne haa]
          exact hheap
      · intro j q a hj hq
        show a < (c.map.heap.set a0 _).length
        rw [List.length_set]
        exact hval j q a hj hq
  · -- a lookup that fails
    subst hc1
    exact ⟨hmap, hval⟩
  · -- a lookup that finds the key
    subst hc1
    constructor
    · intro k1 a1 hk1
      obtain ⟨hh, hheap, hok⟩ := hmap _ _ hk1
      exact ⟨hh, hheap, SecSlotOK_append hok rfl⟩
    · intro j q a1 hj hq
      rcases getElem?_concat_cases hj with hj1 | ⟨_, hq1⟩
      · exact hval j q a1 hj1 hq
      · rw [hq1] at hq
        simp [Pending.carries] at hq
  · -- the receive
    subst hc1
    cases r with
    | none =>
      rw [(lockRecv_ret_none ho).1]
      constructor
      · intro k1 a1 hk1
        obtain ⟨hh, hheap, hok⟩ := hmap _ _ hk1
        exact ⟨hh, hheap, SecSlotOK_set hok i rfl⟩
      · exact carried_set i hval (by intro a1 hq; simp [Pending.carries] at hq)
    | some t =>
      obtain ⟨hh0, hheap0, hb, hm⟩ := lockRecv_ret_some ho
      subst hm
      constructor
      · intro k1 a1 hk1
        obtain ⟨hh, hheap, hok⟩ := hmap _ _ hk1
        by_cases haa : a = a1
        · subst haa
          rw [hheap0] at hheap
          cases hheap
          have hnone : ∀ (j : Nat) (q : Pending), c.calls[j]? = some q →
              q.carries a = false :=
            hok.quiet (Or.inr (by rw [hb]; simp))
          refine ⟨_, getElem?_set_same _ (getElem?_lt hheap0), hok.keyed, hok.isOpen,
            fun _ => rfl, ?_, ?_⟩
          · rintro (hl | hq)
            · have hbn := hok.gate hl
              rw [hb] at hbn
              exact absurd hbn (by simp)
            · exact absurd rfl hq
          · intro j1 j2 q1 q2 hj1 hj2 hq1 hq2
            rcases getElem?_set_cases hj1 with ⟨hi1, _⟩ | ⟨_, hg1⟩
            · rcases getElem?_set_cases hj2 with ⟨hi2, _⟩ | ⟨_, hg2⟩
              · rw [hi1, hi2]
              · rw [hnone j2 q2 hg2] at hq2
                exact absurd hq2 (by simp)
            · rw [hnone j1 q1 hg1] at hq1
              exact absurd hq1 (by simp)
        · refine ⟨hh, ?_, SecSlotOK_set hok i (by simp [Pending.carries, haa])⟩
          show (c.map.heap.set a _)[a1]? = some hh
          rw [List.getElem?_set_ne haa]
          exact hheap
      · have hv1 : ∀ (j : Nat) (q : Pending) (a1 : Nat), c.calls[j]? = some q →
            q.carries a1 = true → a1 < (c.map.heap.set a
              { element := hh0.element, lockedTransactionId := hh0.lockedTransactionId,
                locked := hh0.locked,
                lockQueue := { buf := none, closed := hh0.lockQueue.closed } }).length := by
          intro j q a1 hj hq
          rw [List.length_set]
          exact hval j q a1 hj hq
        refine carried_set i hv1 ?_
        intro a1 hq
        simp only [Pending.carries, decide_eq_true_eq] at hq
        subst hq
        rw [List.length_set]
        exact getElem?_lt hheap0
  · -- the second critical section of Lock
    subst hc1
    cases r with
    | none =>
      obtain ⟨_, hm⟩ := lockFinish_ret_none (r := none) (by
        cases res with
        | none => exact ho
        | some l => simp [lockFinish] at ho)
      rw [hm]
      constructor
      · intro k1 a1 hk1
        obtain ⟨hh, hheap, hok⟩ := hmap _ _ hk1
        exact ⟨hh, hheap, SecSlotOK_set hok i (afterLock_carries _ _ _)⟩
      · exact carried_set i hval (by
          intro a1 hq
          rw [afterLock_carries] at hq
          exact absurd hq (by simp))
    | some t =>
      obtain ⟨hh0, hheap0, hm, _⟩ := lockFinish_ret_token ho
      subst hm
      constructor
      · intro k1 a1 hk1
        obtain ⟨hh, hheap, hok⟩ := hmap _ _ hk1
        by_cases haa : a = a1
        · subst haa
          rw [hheap0] at hheap
          cases hheap
          have hcar : (Pending.got a (some t) d).carries a = true := by
            simp [Pending.carries]
          have hbn : hh0.lockQueue.buf = none := by
            cases hbq : hh0.lockQueue.buf with
            | none => rfl
            | some t1 =>
              have hf := hok.quiet (Or.inr (by rw [hbq]; simp)) i _ hi
              rw [hf] at hcar
              exact absurd hcar (by simp)
          have hnone : ∀ (j : Nat) (q : Pending),
              (c.calls.set i (afterLock d res))[j]? = some q → q.carries a = false := by
            intro j q hj
            rcases getElem?_set_cases hj with ⟨_, hq⟩ | ⟨hji, hj1⟩
            · rw [hq]
              exact afterLock_carries _ _ _
            · cases hq : q.carries a with
              | false => rfl
              | true => exact absurd (hok.one j i q _ hj1 hi hq hcar) hji
          refine ⟨_, getElem?_set_same _ (getElem?_lt hheap0), hok.keyed, hok.isOpen,
            fun _ => hbn, fun _ => hnone, ?_⟩
          intro j1 j2 q1 q2 hj1 _ hq1 _
          rw [hnone j1 q1 hj1] at hq1
          exact absurd hq1 (by simp)
        · refine ⟨hh, ?_, SecSlotOK_set hok i (afterLock_carries _ _ _)⟩
          show (c.map.heap.set a _)[a1]? = some hh
          rw [List.getElem?_set_ne haa]
          exact hheap
      · have hv1 : ∀ (j : Nat) (q : Pending) (a1 : Nat), c.calls[j]? = some q →
            q.carries a1 = true → a1 < (c.map.heap.set a
              { element := hh0.element, lockedTransactionId := wrapInt (t + 1),
                locked := true, lockQueue := hh0.lockQueue }).length := by
          intro j q a1 hj hq
          rw [List.length_set]
          exact hval j q a1 hj hq
        refine carried_set i hv1 ?_
        intro a1 hq
        rw [afterLock_carries] at hq
        exact absurd hq (by simp)
  · -- the critical section of Delete
    subst hc1
    obtain ⟨a0, hh0, e, hk0, hheap0, he, _, hm⟩ := deleteFinish_ret_loan ho
    subst hm
    obtain ⟨hx, hheapx, hokx⟩ := hmap _ _ hk0
    rw [hheap0] at hheapx
    cases hheapx
    obtain ⟨e0, he0, hek⟩ := hokx.keyed
    rw [he] at he0
    cases he0
    constructor
    · intro k1 a1 hk1
      have hk2 : mapGet (mapDelete c.map.m e.key) k1 = some a1 := hk1
      have hne : k1 ≠ e.key := by
        intro hk
        rw [hk, mapGet_mapDelete_self] at hk2
        exact absurd hk2 (by simp)
      rw [mapGet_mapDelete_ne _ hne] at hk2
      obtain ⟨hh, hheap, hok⟩ := hmap _ _ hk2
      have haa : a0 ≠ a1 := by
        intro haa
        subst haa
        rw [hheap0] at hheap
        cases hheap
        obtain ⟨e2, he2, hek2⟩ := hok.keyed
        rw [he] at he2
        cases he2
        exact hne hek2.symm
      refine ⟨hh, ?_, SecSlotOK_set hok i rfl⟩
      show (c.map.heap.set a0 _)[a1]? = some hh
      rw [List.getElem?_set_ne haa]
      exact hheap
    · have hv1 : ∀ (j : Nat) (q : Pending) (a1 : Nat), c.calls[j]? = some q →
          q.carries a1 = true → a1 < (c.map.heap.set a0
            { element := hh0.element, lockedTransactionId := hh0.lockedTransactionId,
              locked := hh0.locked,
              lockQueue := { buf := hh0.lockQueue.buf, closed := true } }).length := by
        intro j q a1 hj hq
        rw [List.length_set]
        exact hval j q a1 hj hq
      exact carried_set i hv1 (by intro a1 hq; simp [Pending.carries] at hq)

theorem SecReachable_inv {c : Conc} (h : SecReachable c) : SecInv c := by
  induction h with
  | init =>
    constructor
    · intro k a hk
      simp [CreateLockedMap, mapGet] at hk
    · intro i p a hi
      simp at hi
  | next x _ hstep ih => exact secStep_inv ih hstep

theorem SecReachable_run {c c1 : Conc} (xs : List Section) (h : SecReachable c)
    (hr : secRun c xs = some c1) : SecReachable c1 := by
  induction xs generalizing c with
  | nil =>
    simp only [secRun, Option.some.injEq] at hr
    rw [← hr]
    exact h
  | cons x xs ih =>
    cases hs : secStep c x with
    | none => simp [secRun, hs] at hr
    | some c2 =>
      simp only [secRun, hs] at hr
      exact ih (SecReachable.next x h hs) hr

/-- C14, amended: in every state `s` reached by whole calls, every slot in the map has
an open gate and is held exactly when its gate is empty; in every state `c` reached by
sections of interleaved calls, every slot in the map has an open gate, and an empty one
if it is held. In both, the send of a held slot's token goes through (it neither panics
nor waits), and `Unlock` of a loan whose element is not nil ends with a boolean. -/
theorem Unlock_deposit_safe (s : Sys) (c : Conc) (hs : Reachable s) (hc : SecReachable c) :
    ((∀ k eh, slot s.map k = some eh →
        eh.lockQueue.closed = false ∧ (eh.locked = true ↔ eh.lockQueue.buf = none)) ∧
      (∀ k eh, slot s.map k = some eh → eh.locked = true →
        eh.lockQueue.send eh.lockedTransactionId =
          .ok { buf := some eh.lockedTransactionId, closed := false }) ∧
      (∀ (loan : ElementLoan) (e : Element), loan.element = some e →
        ∃ m1 loan1 b, Unlock s.map loan = .ret (m1, loan1, b))) ∧
    ((∀ k eh, slot c.map k = some eh →
        eh.lockQueue.closed = false ∧ (eh.locked = true → eh.lockQueue.buf = none)) ∧
      (∀ k eh, slot c.map k = some eh → eh.locked = true →
        eh.lockQueue.send eh.lockedTransactionId =
          .ok { buf := some eh.lockedTransactionId, closed := false }) ∧
      (∀ (loan : ElementLoan) (e : Element), loan.element = some e →
        ∃ m1 loan1 b, Unlock c.map loan = .ret (m1, loan1, b))) := by
  have hwf := Reachable_WF hs
  have hsec := (SecReachable_inv hc).1
  constructor
  · refine ⟨?_, deposit_goes_through ?_⟩
    · intro k eh hsl
      obtain ⟨a, ha, hh⟩ := slot_some hsl
      obtain ⟨eh0, hh0, hok⟩ := hwf _ _ ha
      rw [hh] at hh0
      cases hh0
      exact ⟨hok.isOpen, hok.gate⟩
    · intro k a ha
      obtain ⟨eh, hh, hok⟩ := hwf _ _ ha
      exact ⟨eh, hh, hok.isOpen, hok.gate.1⟩
  · refine ⟨?_, deposit_goes_through ?_⟩
    · intro k eh hsl
      obtain ⟨a, ha, hh⟩ := slot_some hsl
      obtain ⟨eh0, hh0, hok⟩ := hsec _ _ ha
      rw [hh] at hh0
      cases hh0
      exact ⟨hok.isOpen, hok.gate⟩
    · intro k a ha
      obtain ⟨eh, hh, hok⟩ := hsec _ _ ha
      exact ⟨eh, hh, hok.isOpen, hok.gate⟩

theorem SecReachable_concMid : SecReachable concMid :=
  SecReachable_run [.add (some e1), .lookup "key1" false, .recv 0] SecReachable.init
    (by decide)

theorem Unlock_deposit_safe_witness :
    ((∀ k eh, slot sysLocked.map k = some eh →
        eh.lockQueue.closed = false ∧ (eh.locked = true ↔ eh.lockQueue.buf = none)) ∧
      (∀ k eh, slot sysLocked.map k = some eh → eh.locked = true →
        eh.lockQueue.send eh.lockedTransactionId =
          .ok { buf := some eh.lockedTransactionId, closed := false }) ∧
      (∀ (loan : ElementLoan) (e : Element), loan.element = some e →
        ∃ m1 loan1 b, Unlock sysLocked.map loan = .ret (m1, loan1, b))) ∧
    ((∀ k eh, slot concMid.map k = some eh →
        eh.lockQueue.closed = false ∧ (eh.locked = true → eh.lockQueue.buf = none)) ∧
      (∀ k eh, slot concMid.map k = some eh → eh.locked = true →
        eh.lockQueue.send eh.lockedTransactionId =
          .ok { buf := some eh.lockedTransactionId, closed := false }) ∧
      (∀ (loan : ElementLoan) (e : Element), loan.element = some e →
        ∃ m1 loan1 b, Unlock concMid.map loan = .ret (m1, loan1, b))) :=
  Unlock_deposit_safe sysLocked concMid Reachable_sysLocked SecReachable_concMid

end Tsmap
